import Mathlib

/-!
# Sentimatrix Studio backend — verification of spec claims

Shallow embedding of the parts of the Sentimatrix Studio backend
(`backend/app`) that the specification's claims are about:

* `JobQueue` — the in-memory scrape-job queue and its single dispatch
  worker (`app/services/scrape_executor.py`, class `JobQueue`);
* `ScrapeExec` — the per-job execution loop of `ScrapeExecutor.execute_job`
  (`app/services/scrape_executor.py`), modelled as the trace of database
  writes it performs;
* `Sched` — `ScheduleRepository` (`app/repositories/schedule.py`) and the
  success path of `SchedulerService._execute_schedule`
  (`app/services/scheduler.py`);
* `Hook` — `WebhookRepository.record_delivery`
  (`app/repositories/webhook.py`) and the request construction of
  `WebhookService.deliver_webhook` (`app/services/webhook_service.py`),
  together with a full executable implementation of SHA-256 and
  HMAC-SHA256 over byte lists (`hmac.new(secret, payload, sha256)`).

Machine integers do not overflow in any of the modelled code (Python
integers are unbounded), so counters are `Nat`.  Timestamps are modelled
as abstract instants (`Nat`); the calendar arithmetic of
`ScheduleRepository._calculate_next_run` (pytz time zones, month ends) is
kept as an explicit function parameter, because every claim depends only
on the fact that it totally returns a datetime (every branch of the
Python function returns one), never on its value.
-/

namespace JobQueue

/-- A scrape job, identified by its id (`job.id` is the dictionary key of
`JobQueue._running`). -/
structure Job where
  id : Nat
deriving DecidableEq, Repr

/-- The control point of the single `JobQueue._worker` coroutine:
blocked on `self._queue.get()` (`idle`), holding a dequeued job at the
capacity check / `asyncio.sleep(1)` loop (`gotJob`), or blocked on
`await executor.execute_job(job, project)` (`executing`). -/
inductive Phase where
  | idle : Phase
  | gotJob : Job → Phase
  | executing : Job → Phase
deriving DecidableEq, Repr

/-- State of a `JobQueue`: the logical FIFO `self._queue`, the keys of
`self._running` (job id of each `ScrapeExecutor` currently executing),
the worker's control point, and the `max_concurrent` setting (constructor
default 3). -/
structure QState where
  queue : List Job
  running : List Job
  phase : Phase
  maxConcurrent : Nat
deriving DecidableEq, Repr

/-- State right after `JobQueue.__init__` and `start()`: empty queue,
empty `_running`, worker waiting on the queue. -/
def initState (mc : Nat) : QState :=
  { queue := [], running := [], phase := .idle, maxConcurrent := mc }

/-- Small-step transitions of the queue system: an environment `enqueue`
(`JobQueue.enqueue`), and the worker's own steps following the body of
`JobQueue._worker`.  The worker `await`s `execute_job` inline, so while a
job executes the worker is at `executing` and can do nothing but finish
it. -/
inductive Step : QState → QState → Prop where
  | enqueue (s : QState) (j : Job) :
      Step s { s with queue := s.queue ++ [j] }
  | dequeue (s : QState) (j : Job) (rest : List Job) :
      s.phase = .idle → s.queue = j :: rest →
      Step s { s with queue := rest, phase := .gotJob j }
  | capacityWait (s : QState) (j : Job) :
      s.phase = .gotJob j → s.maxConcurrent ≤ s.running.length →
      Step s s
  | startJob (s : QState) (j : Job) :
      s.phase = .gotJob j → s.running.length < s.maxConcurrent →
      Step s { s with running := j :: s.running, phase := .executing j }
  | finishJob (s : QState) (j : Job) :
      s.phase = .executing j →
      Step s { s with running := s.running.erase j, phase := .idle }

/-- States reachable from a freshly started queue (any `max_concurrent`). -/
inductive Reachable : QState → Prop where
  | init (mc : Nat) : Reachable (initState mc)
  | step {s t : QState} : Reachable s → Step s t → Reachable t

/-- The inductive invariant: `self._running` is empty except while the
worker is inside `await executor.execute_job`, in which case it holds
exactly the executing job; execution only starts when the capacity check
passed, so `executing` also records `0 < maxConcurrent`. -/
def inv (s : QState) : Prop :=
  match s.phase with
  | .executing j => s.running = [j] ∧ 0 < s.maxConcurrent
  | _ => s.running = []

theorem inv_init (mc : Nat) : inv (initState mc) := rfl

theorem inv_step {s t : QState} (hs : inv s) (h : Step s t) : inv t := by
  cases h with
  | enqueue j =>
      unfold inv at hs ⊢
      cases hph : s.phase <;> rw [hph] at hs <;> simpa [hph] using hs
  | dequeue j rest hph hq =>
      unfold inv at hs ⊢
      rw [hph] at hs
      simpa using hs
  | capacityWait j hph hcap => exact hs
  | startJob j hph hlt =>
      unfold inv at hs ⊢
      rw [hph] at hs
      refine ⟨by simp [hs], ?_⟩
      rw [hs] at hlt
      simpa using hlt
  | finishJob j hph =>
      unfold inv at hs ⊢
      rw [hph] at hs
      simp [hs.1]

theorem inv_reachable {s : QState} (h : Reachable s) : inv s := by
  induction h with
  | init mc => exact inv_init mc
  | step _ hstep ih => exact inv_step ih hstep

theorem running_length_le_one {s : QState} (h : Reachable s) :
    s.running.length ≤ 1 := by
  have hi := inv_reachable h
  unfold inv at hi
  cases hph : s.phase <;> rw [hph] at hi <;> simp_all

/-- C1: In every reachable state of the `JobQueue` system the number of
concurrently executing `ScrapeExecutor`s (the size of `self._running`,
i.e. of jobs in running status under the dispatch loop) is at most
`max_concurrent`; and whenever the worker holds a freshly dequeued job
while `len(self._running) >= self.max_concurrent`, no step starts that
job's executor: every enabled step leaves the worker's phase and the
running set unchanged (the worker waits in the `asyncio.sleep(1)` loop). -/
theorem jobqueue_running_le_maxConcurrent (s : QState) (h : Reachable s) :
    s.running.length ≤ s.maxConcurrent ∧
      ∀ j t, s.phase = .gotJob j → s.maxConcurrent ≤ s.running.length →
        Step s t → t.phase = s.phase ∧ t.running = s.running := by
  have hi := inv_reachable h
  constructor
  · unfold inv at hi
    cases hph : s.phase <;> rw [hph] at hi
    · simp [hi]
    · simp [hi]
    · rw [hi.1]
      exact hi.2
  · intro j t hph hcap hstep
    cases hstep with
    | enqueue j' => exact ⟨rfl, rfl⟩
    | dequeue j' rest hidle hq => rw [hph] at hidle; cases hidle
    | capacityWait j' hph' hcap' => exact ⟨rfl, rfl⟩
    | startJob j' hph' hlt =>
        exact absurd (Nat.lt_of_le_of_lt hcap hlt) (Nat.lt_irrefl _)
    | finishJob j' hph' => rw [hph] at hph'; cases hph'

/-- C1 witness -/
theorem jobqueue_running_le_maxConcurrent_witness :
    (initState 3).running.length ≤ (initState 3).maxConcurrent :=
  (jobqueue_running_le_maxConcurrent (initState 3) (.init 3)).1

/-- C2: The worker of `JobQueue._worker` awaits each dequeued job to
completion before dequeuing the next, so in every reachable state
`self._running` has at most one entry; and with any positive
`max_concurrent` (in particular the default 3) the capacity-wait branch
`len(self._running) >= self.max_concurrent` is never entered: at the
capacity check the running set is empty, so its guard is false. -/
theorem jobqueue_at_most_one_executor (s : QState) (h : Reachable s)
    (hmc : 1 ≤ s.maxConcurrent) :
    s.running.length ≤ 1 ∧
      ∀ j, s.phase = .gotJob j → ¬ s.maxConcurrent ≤ s.running.length := by
  refine ⟨running_length_le_one h, ?_⟩
  intro j hph hcap
  have hi := inv_reachable h
  unfold inv at hi
  rw [hph] at hi
  rw [hi] at hcap
  simp at hcap
  omega

/-- C2 witness -/
theorem jobqueue_at_most_one_executor_witness :
    (initState 3).running.length ≤ 1 ∧
      ∀ j, (initState 3).phase = .gotJob j →
        ¬ (initState 3).maxConcurrent ≤ (initState 3).running.length :=
  jobqueue_at_most_one_executor (initState 3) (.init 3) (by decide)

end JobQueue

namespace PyFloat

/-- `⌊log2 n⌋` by structural recursion on a fuel argument, so that the
kernel can evaluate it (the fuel is instantiated with `n` itself). -/
def log2f : Nat → Nat → Nat
  | 0, _ => 0
  | f + 1, n => if 2 ≤ n then log2f f (n / 2) + 1 else 0

/-- `⌊log2 n⌋` for `n ≥ 1`. -/
def ilog2 (n : Nat) : Nat := log2f n n

/-- Exact comparison `x * 2^p ≤ y` for an integer exponent `p`, carried
out in `Nat` by moving the power to the other side when `p < 0`. -/
def shiftLe (x y : Nat) (p : Int) : Bool :=
  if 0 ≤ p then x * 2 ^ p.toNat ≤ y else x ≤ y * 2 ^ (-p).toNat

/-- The unique `p` with `2^p ≤ a/b < 2^(p+1)`, for `a, b ≥ 1`: the
candidate `⌊log2 a⌋ - ⌊log2 b⌋` is corrected down by one when it
overshoots. -/
def ratLog2 (a b : Nat) : Int :=
  let p0 : Int := (ilog2 a : Int) - (ilog2 b : Int)
  if shiftLe b a p0 then p0 else p0 - 1

/-- A `Nat` pair `(A, B)` with `A / B = (a / b) * 2^(-e)` exactly. -/
def scaledPair (a b : Nat) (e : Int) : Nat × Nat :=
  if 0 ≤ e then (a, b * 2 ^ e.toNat) else (a * 2 ^ (-e).toNat, b)

/-- Round half to even: the integer nearest to `A / B`, with ties going
to the even neighbour — the rounding IEEE-754 prescribes. -/
def rhe (A B : Nat) : Nat :=
  if 2 * (A % B) < B then A / B
  else if B < 2 * (A % B) then A / B + 1
  else if A / B % 2 = 0 then A / B else A / B + 1

/-- Exponent of the binary64 result of `a / b`: the quotient lies in
`[2^(e+52), 2^(e+53))`. -/
def rndE (a b : Nat) : Int := ratLog2 a b - 52

/-- Scaled numerator: `rndA / rndB = (a/b) * 2^(-rndE) ∈ [2^52, 2^53)`. -/
def rndA (a b : Nat) : Nat := (scaledPair a b (rndE a b)).1

/-- Scaled denominator, see `rndA`. -/
def rndB (a b : Nat) : Nat := (scaledPair a b (rndE a b)).2

/-- The 53-bit significand of the rounded quotient (possibly `2^53`
before renormalisation). -/
def rndM (a b : Nat) : Nat := rhe (rndA a b) (rndB a b)

/-- IEEE-754 binary64 division `a / b` of two positive integers:
correctly rounded to nearest, ties to even, with unbounded exponent
range.  The result `(m, e)` denotes `m * 2^e` with `2^52 ≤ m < 2^53`.
For every quotient in binary64's normal range (in particular whenever
`b ≤ 2^52 ≤ a * 2^1000`) this is exactly what hardware and CPython
compute; gradual underflow below `2^-1022` and overflow are not
modelled. -/
def posRnd (a b : Nat) : Nat × Int :=
  if rndM a b = 2 ^ 53 then (2 ^ 52, rndE a b + 1) else (rndM a b, rndE a b)

/-- The rational value `m * 2^e` of a floating-point result. -/
def dval (d : Nat × Int) : ℚ := (d.1 : ℚ) * (2 : ℚ) ^ d.2

/-- IEEE-754 binary64 multiplication of a positive float by the exact
constant `100`: the product `100 * m * 2^e` rounded to nearest, ties to
even. -/
def mul100 (d : Nat × Int) : Nat × Int :=
  posRnd (scaledPair (100 * d.1) 1 (-d.2)).1 (scaledPair (100 * d.1) 1 (-d.2)).2

/-- Truncation of a non-negative float to an integer (`int(x)` in
Python). -/
def dfloor (d : Nat × Int) : Nat :=
  if 0 ≤ d.2 then d.1 * 2 ^ d.2.toNat else d.1 / 2 ^ (-d.2).toNat

/-- The Python expression `int((c / t) * 100)` (scrape_executor.py line
120) evaluated exactly as CPython does: true division of ints is a
correctly rounded binary64 division, `* 100` a correctly rounded
binary64 product, and `int()` truncates.  For `t = 0` Python would
raise `ZeroDivisionError`; the executor only divides by the (non-zero)
total target count, and the model returns 0 there.  Because of the
intermediate roundings this differs from both `round(100*c/t)` and
`⌊100*c/t⌋`: `pyFloatPct 2 3 = 66` and `pyFloatPct 29 100 = 28`. -/
def pyFloatPct (c t : Nat) : Nat :=
  if c = 0 ∨ t = 0 then 0 else dfloor (mul100 (posRnd c t))

theorem log2f_spec : ∀ (f n : Nat), 1 ≤ n → n ≤ f →
    2 ^ log2f f n ≤ n ∧ n < 2 ^ (log2f f n + 1) := by
  intro f
  induction f with
  | zero => intro n h1 h2; omega
  | succ f ih =>
      intro n h1 h2
      by_cases h : 2 ≤ n
      · have hrec := ih (n / 2) (by omega) (by omega)
        simp only [log2f, if_pos h]
        constructor
        · have : 2 ^ (log2f f (n / 2) + 1) = 2 * 2 ^ log2f f (n / 2) := by ring
          omega
        · have : 2 ^ (log2f f (n / 2) + 1 + 1) = 2 * 2 ^ (log2f f (n / 2) + 1) := by
            ring
          omega
      · simp only [log2f, if_neg h]
        omega

theorem ilog2_spec (n : Nat) (h : 1 ≤ n) :
    2 ^ ilog2 n ≤ n ∧ n < 2 ^ (ilog2 n + 1) :=
  log2f_spec n n h le_rfl

theorem shiftLe_iff (x y : Nat) (p : Int) :
    shiftLe x y p = true ↔ (x : ℚ) * (2 : ℚ) ^ p ≤ y := by
  unfold shiftLe
  by_cases hp : 0 ≤ p
  · rw [if_pos hp]
    have h2 : (2 : ℚ) ^ p = ((2 ^ p.toNat : Nat) : ℚ) := by
      push_cast
      rw [← zpow_natCast (2 : ℚ) p.toNat, Int.toNat_of_nonneg hp]
    rw [h2, decide_eq_true_eq, ← Nat.cast_mul, Nat.cast_le]
  · rw [if_neg hp]
    have hppos : (0 : ℚ) < (2 : ℚ) ^ p := zpow_pos (by norm_num) p
    have h2 : (2 : ℚ) ^ (-p) = ((2 ^ (-p).toNat : Nat) : ℚ) := by
      push_cast
      rw [← zpow_natCast (2 : ℚ) (-p).toNat, Int.toNat_of_nonneg (by omega : 0 ≤ -p)]
    rw [decide_eq_true_eq]
    constructor
    · intro hxy
      have : (x : ℚ) ≤ (y : ℚ) * (2 : ℚ) ^ (-p) := by
        rw [h2]
        exact_mod_cast hxy
      calc (x : ℚ) * (2 : ℚ) ^ p ≤ ((y : ℚ) * (2 : ℚ) ^ (-p)) * (2 : ℚ) ^ p := by
            apply mul_le_mul_of_nonneg_right this (le_of_lt hppos)
        _ = y := by
            rw [mul_assoc, ← zpow_add₀ (by norm_num : (2:ℚ) ≠ 0)]
            simp
    · intro hxy
      have : (x : ℚ) ≤ (y : ℚ) * (2 : ℚ) ^ (-p) := by
        calc (x : ℚ) = (x : ℚ) * (2 : ℚ) ^ p * (2 : ℚ) ^ (-p) := by
              rw [mul_assoc, ← zpow_add₀ (by norm_num : (2:ℚ) ≠ 0)]
              simp
          _ ≤ (y : ℚ) * (2 : ℚ) ^ (-p) := by
              apply mul_le_mul_of_nonneg_right hxy (le_of_lt (zpow_pos (by norm_num) _))
      rw [h2] at this
      exact_mod_cast this

theorem ratLog2_spec (a b : Nat) (ha : 1 ≤ a) (hb : 1 ≤ b) :
    (2 : ℚ) ^ ratLog2 a b ≤ (a : ℚ) / b ∧ (a : ℚ) / b < (2 : ℚ) ^ (ratLog2 a b + 1) := by
  have hbQ : (0 : ℚ) < (b : ℚ) := by exact_mod_cast hb
  have haS := ilog2_spec a ha
  have hbS := ilog2_spec b hb
  have haL : ((2 : ℚ)) ^ (ilog2 a : ℤ) ≤ (a : ℚ) := by
    rw [zpow_natCast]; exact_mod_cast haS.1
  have haU : (a : ℚ) < (2 : ℚ) ^ ((ilog2 a : ℤ) + 1) := by
    have : ((ilog2 a : ℤ) + 1) = ((ilog2 a + 1 : Nat) : ℤ) := by push_cast; ring
    rw [this, zpow_natCast]; exact_mod_cast haS.2
  have hbL : ((2 : ℚ)) ^ (ilog2 b : ℤ) ≤ (b : ℚ) := by
    rw [zpow_natCast]; exact_mod_cast hbS.1
  have hbU : (b : ℚ) < (2 : ℚ) ^ ((ilog2 b : ℤ) + 1) := by
    have : ((ilog2 b : ℤ) + 1) = ((ilog2 b + 1 : Nat) : ℤ) := by push_cast; ring
    rw [this, zpow_natCast]; exact_mod_cast hbS.2
  set p0 : Int := (ilog2 a : Int) - (ilog2 b : Int) with hp0
  have hub : (a : ℚ) / b < (2 : ℚ) ^ (p0 + 1) := by
    rw [div_lt_iff₀ hbQ]
    calc (a : ℚ) < (2 : ℚ) ^ ((ilog2 a : ℤ) + 1) := haU
      _ = (2 : ℚ) ^ (p0 + 1) * (2 : ℚ) ^ (ilog2 b : ℤ) := by
          rw [← zpow_add₀ (by norm_num : (2:ℚ) ≠ 0)]
          congr 1
          omega
      _ ≤ (2 : ℚ) ^ (p0 + 1) * b := by
          apply mul_le_mul_of_nonneg_left hbL (le_of_lt (zpow_pos (by norm_num) _))
  have hlb : (2 : ℚ) ^ (p0 - 1) < (a : ℚ) / b := by
    rw [lt_div_iff₀ hbQ]
    calc (2 : ℚ) ^ (p0 - 1) * b < (2 : ℚ) ^ (p0 - 1) * (2 : ℚ) ^ ((ilog2 b : ℤ) + 1) := by
          apply mul_lt_mul_of_pos_left hbU (zpow_pos (by norm_num) _)
      _ = (2 : ℚ) ^ (ilog2 a : ℤ) := by
          rw [← zpow_add₀ (by norm_num : (2:ℚ) ≠ 0)]
          congr 1
          omega
      _ ≤ a := haL
  unfold ratLog2
  rw [← hp0]
  by_cases hs : shiftLe b a p0
  · rw [if_pos hs]
    have hle := (shiftLe_iff b a p0).mp hs
    refine ⟨?_, hub⟩
    rw [le_div_iff₀ hbQ]
    calc (2 : ℚ) ^ p0 * b = (b : ℚ) * (2 : ℚ) ^ p0 := by ring
      _ ≤ a := hle
  · rw [if_neg hs]
    have hnot : (a : ℚ) < (b : ℚ) * (2 : ℚ) ^ p0 := by
      by_contra hcon
      push_neg at hcon
      exact hs ((shiftLe_iff b a p0).mpr hcon)
    refine ⟨le_of_lt hlb, ?_⟩
    have heq : p0 - 1 + 1 = p0 := by ring
    rw [heq, div_lt_iff₀ hbQ]
    calc (a : ℚ) < (b : ℚ) * (2 : ℚ) ^ p0 := hnot
      _ = (2 : ℚ) ^ p0 * b := by ring


theorem rhe_between (A B : Nat) : A / B ≤ rhe A B ∧ rhe A B ≤ A / B + 1 := by
  unfold rhe
  split_ifs <;> omega

theorem rhe_half (A B : Nat) (hB : 1 ≤ B) :
    2 * (rhe A B * B) ≤ 2 * A + B ∧ 2 * A ≤ 2 * (rhe A B * B) + B := by
  have hd : A / B * B + A % B = A := by
    rw [Nat.mul_comm (A / B) B]
    exact Nat.div_add_mod A B
  have hm : A % B < B := Nat.mod_lt A (by omega)
  have hds : A / B * B ≤ A := Nat.div_mul_le_self A B
  unfold rhe
  split_ifs with h1 h2 h3 <;>
    (try simp only [Nat.add_mul, Nat.one_mul]) <;> constructor <;> linarith

theorem rhe_mono (A B A' B' : Nat) (hB : 1 ≤ B) (hB' : 1 ≤ B')
    (h : A * B' ≤ A' * B) : rhe A B ≤ rhe A' B' := by
  have hq : A / B ≤ A' / B' := by
    rw [Nat.le_div_iff_mul_le (show 0 < B' by omega)]
    have h1 : A / B * B * B' ≤ A * B' :=
      Nat.mul_le_mul_right B' (Nat.div_mul_le_self A B)
    have h3 : A / B * B' * B ≤ A' * B := by
      calc A / B * B' * B = A / B * B * B' := by ring
        _ ≤ A * B' := h1
        _ ≤ A' * B := h
    exact Nat.le_of_mul_le_mul_right h3 (show 0 < B by omega)
  rcases Nat.lt_or_ge (A / B) (A' / B') with hlt | hge
  · have hb1 := rhe_between A B
    have hb2 := rhe_between A' B'
    omega
  · have hqq : A / B = A' / B' := by omega
    have hdA := Nat.div_add_mod A B
    have hdA' := Nat.div_add_mod A' B'
    have hmA := Nat.mod_lt A (show 0 < B by omega)
    have hmA' := Nat.mod_lt A' (show 0 < B' by omega)
    have hdA2 : A / B * B + A % B = A := by
      rw [Nat.mul_comm (A / B) B]; exact hdA
    have hdA2' : A' / B' * B' + A' % B' = A' := by
      rw [Nat.mul_comm (A' / B') B']; exact hdA'
    have hrr : A % B * B' ≤ A' % B' * B := by
      have h2 : (A / B * B + A % B) * B' ≤ (A' / B' * B' + A' % B') * B := by
        rw [hdA2, hdA2']; exact h
      rw [hqq] at h2
      ring_nf at h2
      linarith
    have keyc : ∀ r r' : Nat, r = A % B → r' = A' % B' →
        B ≤ 2 * r → 2 * r' ≤ B' → (B < 2 * r ∨ 2 * r' < B') → False := by
      intro r r' hr hr' hBr hB'r hstrict
      have c2 : 2 * r * B' ≤ 2 * r' * B := by
        have h3 : r * B' ≤ r' * B := by rw [hr, hr']; exact hrr
        calc 2 * r * B' = 2 * (r * B') := by ring
          _ ≤ 2 * (r' * B) := by omega
          _ = 2 * r' * B := by ring
      have c4 : B' * B = B * B' := by ring
      rcases hstrict with hs | hs
      · have c1 : B * B' < 2 * r * B' :=
          mul_lt_mul_of_pos_right hs (show (0:ℕ) < B' by omega)
        have c3 : 2 * r' * B ≤ B' * B :=
          mul_le_mul_of_nonneg_right hB'r (Nat.zero_le B)
        omega
      · have c1 : B * B' ≤ 2 * r * B' :=
          mul_le_mul_of_nonneg_right hBr (Nat.zero_le B')
        have c3 : 2 * r' * B < B' * B :=
          mul_lt_mul_of_pos_right hs (show (0:ℕ) < B by omega)
        omega
    unfold rhe
    rw [hqq]
    split_ifs <;>
      first
        | omega
        | exact (keyc (A % B) (A' % B') rfl rfl (by omega) (by omega)
            (by omega)).elim

theorem scaledPair_B_pos (a b : Nat) (e : Int) (hb : 1 ≤ b) :
    1 ≤ (scaledPair a b e).2 := by
  unfold scaledPair
  split_ifs
  · exact Nat.mul_pos (by omega) (Nat.pow_pos (by omega))
  · exact hb

theorem scaledPair_A_pos (a b : Nat) (e : Int) (ha : 1 ≤ a) :
    1 ≤ (scaledPair a b e).1 := by
  unfold scaledPair
  split_ifs
  · exact ha
  · exact Nat.mul_pos (by omega) (Nat.pow_pos (by omega))

theorem cast_pow_toNat (p : Int) (hp : 0 ≤ p) :
    ((2 ^ p.toNat : Nat) : ℚ) = (2 : ℚ) ^ p := by
  push_cast
  rw [← zpow_natCast (2 : ℚ) p.toNat, Int.toNat_of_nonneg hp]

theorem scaledPair_val (a b : Nat) (e : Int) (hb : 1 ≤ b) :
    ((scaledPair a b e).1 : ℚ) / ((scaledPair a b e).2 : ℚ)
      = ((a : ℚ) / b) * (2 : ℚ) ^ (-e) := by
  have hbQ : ((b : ℚ)) ≠ 0 := by
    have : (0 : ℚ) < b := by exact_mod_cast hb
    exact ne_of_gt this
  have h2 : ((2 : ℚ)) ≠ 0 := by norm_num
  unfold scaledPair
  by_cases he : 0 ≤ e
  · rw [if_pos he]
    push_cast
    rw [show ((2 : ℚ) ^ e.toNat) = (2 : ℚ) ^ e by
      rw [← zpow_natCast (2 : ℚ) e.toNat, Int.toNat_of_nonneg he]]
    rw [div_mul_eq_div_div, div_eq_mul_inv ((a : ℚ) / b), zpow_neg]
  · rw [if_neg he]
    push_cast
    rw [show ((2 : ℚ) ^ (-e).toNat) = (2 : ℚ) ^ (-e) by
      rw [← zpow_natCast (2 : ℚ) (-e).toNat, Int.toNat_of_nonneg (by omega : 0 ≤ -e)]]
    rw [mul_comm ((a : ℚ)) ((2:ℚ) ^ (-e)), mul_div_assoc, mul_comm ((2:ℚ) ^ (-e))]

theorem ratLog2_eq (a b : Nat) : ratLog2 a b = rndE a b + 52 := by
  unfold rndE
  ring

theorem rnd_scaled_bounds (a b : Nat) (ha : 1 ≤ a) (hb : 1 ≤ b) :
    rndB a b * 2 ^ 52 ≤ rndA a b ∧ rndA a b < rndB a b * 2 ^ 53 := by
  have hspec := ratLog2_spec a b ha hb
  have hval : (rndA a b : ℚ) / (rndB a b : ℚ)
      = ((a : ℚ) / b) * (2 : ℚ) ^ (-(rndE a b)) :=
    scaledPair_val a b (rndE a b) hb
  have hBpos : (0 : ℚ) < ((rndB a b : ℚ)) := by
    have := scaledPair_B_pos a b (rndE a b) hb
    exact_mod_cast this
  have habpos : (0 : ℚ) < (2 : ℚ) ^ (-(rndE a b)) := zpow_pos (by norm_num) _
  rw [ratLog2_eq] at hspec
  have hL : (2 : ℚ) ^ (52 : ℤ) ≤ (rndA a b : ℚ) / (rndB a b : ℚ) := by
    rw [hval]
    calc (2 : ℚ) ^ (52 : ℤ) = (2 : ℚ) ^ (rndE a b + 52) * (2 : ℚ) ^ (-(rndE a b)) := by
          rw [← zpow_add₀ (by norm_num : (2:ℚ) ≠ 0)]
          congr 1
          ring
      _ ≤ ((a : ℚ) / b) * (2 : ℚ) ^ (-(rndE a b)) :=
          mul_le_mul_of_nonneg_right hspec.1 (le_of_lt habpos)
  have hU : (rndA a b : ℚ) / (rndB a b : ℚ) < (2 : ℚ) ^ (53 : ℤ) := by
    rw [hval]
    calc ((a : ℚ) / b) * (2 : ℚ) ^ (-(rndE a b))
        < (2 : ℚ) ^ (rndE a b + 52 + 1) * (2 : ℚ) ^ (-(rndE a b)) :=
          mul_lt_mul_of_pos_right hspec.2 habpos
      _ = (2 : ℚ) ^ (53 : ℤ) := by
          rw [← zpow_add₀ (by norm_num : (2:ℚ) ≠ 0)]
          congr 1
          ring
  constructor
  · have : ((rndB a b : ℚ)) * (2 : ℚ) ^ (52 : ℤ) ≤ (rndA a b : ℚ) := by
      rw [← le_div_iff₀' hBpos]
      exact hL
    have h52 : ((2 : ℚ)) ^ (52 : ℤ) = ((2 ^ 52 : Nat) : ℚ) := by
      rw [show ((52 : ℤ)) = ((52 : Nat) : ℤ) by rfl, zpow_natCast]
      push_cast
      ring
    rw [h52, ← Nat.cast_mul] at this
    exact_mod_cast this
  · have : (rndA a b : ℚ) < ((rndB a b : ℚ)) * (2 : ℚ) ^ (53 : ℤ) := by
      rw [← div_lt_iff₀' hBpos]
      exact hU
    have h53 : ((2 : ℚ)) ^ (53 : ℤ) = ((2 ^ 53 : Nat) : ℚ) := by
      rw [show ((53 : ℤ)) = ((53 : Nat) : ℤ) by rfl, zpow_natCast]
      push_cast
      ring
    rw [h53, ← Nat.cast_mul] at this
    exact_mod_cast this

theorem rndM_range (a b : Nat) (ha : 1 ≤ a) (hb : 1 ≤ b) :
    2 ^ 52 ≤ rndM a b ∧ rndM a b ≤ 2 ^ 53 := by
  have hsb := rnd_scaled_bounds a b ha hb
  have hBpos : 1 ≤ rndB a b := scaledPair_B_pos a b (rndE a b) hb
  have hq52 : 2 ^ 52 ≤ rndA a b / rndB a b := by
    rw [Nat.le_div_iff_mul_le (show 0 < rndB a b by omega)]
    calc 2 ^ 52 * rndB a b = rndB a b * 2 ^ 52 := by ring
      _ ≤ rndA a b := hsb.1
  have hq53 : rndA a b / rndB a b < 2 ^ 53 := by
    rw [Nat.div_lt_iff_lt_mul (show 0 < rndB a b by omega)]
    calc rndA a b < rndB a b * 2 ^ 53 := hsb.2
      _ = 2 ^ 53 * rndB a b := by ring
  have hbtw := rhe_between (rndA a b) (rndB a b)
  unfold rndM
  omega

theorem posRnd_dval (a b : Nat) :
    dval (posRnd a b) = (rndM a b : ℚ) * (2 : ℚ) ^ rndE a b := by
  unfold posRnd
  by_cases hm : rndM a b = 2 ^ 53
  · rw [if_pos hm, hm]
    unfold dval
    push_cast
    rw [zpow_add₀ (by norm_num : (2:ℚ) ≠ 0)]
    ring
  · rw [if_neg hm]
    rfl

theorem posRnd_fst_range (a b : Nat) (ha : 1 ≤ a) (hb : 1 ≤ b) :
    2 ^ 52 ≤ (posRnd a b).1 ∧ (posRnd a b).1 < 2 ^ 53 := by
  have hr := rndM_range a b ha hb
  unfold posRnd
  split_ifs with hm <;> constructor <;> simp <;> omega

theorem two_zpow_pos (e : Int) : (0 : ℚ) < (2 : ℚ) ^ e := zpow_pos (by norm_num) e

theorem two_zpow_mono {m n : Int} (h : m ≤ n) : (2 : ℚ) ^ m ≤ (2 : ℚ) ^ n :=
  zpow_le_zpow_right₀ (by norm_num) h

theorem rndB_posQ (a b : Nat) (hb : 1 ≤ b) : (0 : ℚ) < (rndB a b : ℚ) := by
  have := scaledPair_B_pos a b (rndE a b) hb
  exact_mod_cast this

theorem posRnd_err (a b : Nat) (ha : 1 ≤ a) (hb : 1 ≤ b) :
    |dval (posRnd a b) - (a : ℚ) / b| ≤ ((a : ℚ) / b) * (2 : ℚ) ^ (-53 : ℤ) := by
  have hBpos := rndB_posQ a b hb
  have hBne : ((rndB a b : ℚ)) ≠ 0 := ne_of_gt hBpos
  have hval : (rndA a b : ℚ) / (rndB a b : ℚ)
      = ((a : ℚ) / b) * (2 : ℚ) ^ (-(rndE a b)) :=
    scaledPair_val a b (rndE a b) hb
  have hab : (a : ℚ) / b
      = ((rndA a b : ℚ) / (rndB a b : ℚ)) * (2 : ℚ) ^ rndE a b := by
    rw [hval, mul_assoc, ← zpow_add₀ (by norm_num : (2:ℚ) ≠ 0)]
    simp
  have hhalf := rhe_half (rndA a b) (rndB a b) (scaledPair_B_pos a b (rndE a b) hb)
  have habs : |(rndM a b : ℚ) - (rndA a b : ℚ) / (rndB a b : ℚ)| ≤ 1 / 2 := by
    have h1 : (2 : ℚ) * ((rndM a b : ℚ) * (rndB a b : ℚ))
        ≤ 2 * (rndA a b : ℚ) + (rndB a b : ℚ) := by exact_mod_cast hhalf.1
    have h2 : (2 : ℚ) * (rndA a b : ℚ)
        ≤ 2 * ((rndM a b : ℚ) * (rndB a b : ℚ)) + (rndB a b : ℚ) := by
      exact_mod_cast hhalf.2
    have hcancel : ((rndA a b : ℚ) / (rndB a b : ℚ)) * (rndB a b : ℚ)
        = (rndA a b : ℚ) := div_mul_cancel₀ _ hBne
    rw [abs_le]
    constructor
    · rw [neg_le, neg_sub, sub_le_iff_le_add]
      have hMB : ((rndA a b : ℚ) / (rndB a b : ℚ)) * (rndB a b : ℚ)
          ≤ (1 / 2 + (rndM a b : ℚ)) * (rndB a b : ℚ) := by
        rw [hcancel, add_mul]
        linarith
      exact le_of_mul_le_mul_right hMB hBpos
    · rw [sub_le_iff_le_add]
      have hMB : (rndM a b : ℚ) * (rndB a b : ℚ)
          ≤ (1 / 2 + (rndA a b : ℚ) / (rndB a b : ℚ)) * (rndB a b : ℚ) := by
        rw [add_mul, hcancel]
        linarith
      exact le_of_mul_le_mul_right hMB hBpos
  have hq52 : (2 : ℚ) ^ (52 : ℤ) ≤ (rndA a b : ℚ) / (rndB a b : ℚ) := by
    have hsb := (rnd_scaled_bounds a b ha hb).1
    rw [le_div_iff₀ hBpos]
    have hcast : ((rndB a b * 2 ^ 52 : Nat) : ℚ) ≤ ((rndA a b : Nat) : ℚ) := by
      exact_mod_cast hsb
    push_cast at hcast
    rw [show ((52 : ℤ)) = ((52 : Nat) : ℤ) by rfl, zpow_natCast, mul_comm]
    linarith
  rw [posRnd_dval, hab]
  have hfac : (rndM a b : ℚ) * (2 : ℚ) ^ rndE a b
      - (rndA a b : ℚ) / (rndB a b : ℚ) * (2 : ℚ) ^ rndE a b
      = ((rndM a b : ℚ) - (rndA a b : ℚ) / (rndB a b : ℚ)) * (2 : ℚ) ^ rndE a b := by
    ring
  rw [hfac, abs_mul, abs_of_pos (two_zpow_pos _)]
  calc |(rndM a b : ℚ) - (rndA a b : ℚ) / (rndB a b : ℚ)| * (2 : ℚ) ^ rndE a b
      ≤ (1 / 2) * (2 : ℚ) ^ rndE a b :=
        mul_le_mul_of_nonneg_right habs (le_of_lt (two_zpow_pos _))
    _ ≤ ((rndA a b : ℚ) / (rndB a b : ℚ) * (2 : ℚ) ^ (-53 : ℤ)) * (2 : ℚ) ^ rndE a b := by
        apply mul_le_mul_of_nonneg_right _ (le_of_lt (two_zpow_pos _))
        calc (1 : ℚ) / 2 = (2 : ℚ) ^ (52 : ℤ) * (2 : ℚ) ^ (-53 : ℤ) := by
              rw [← zpow_add₀ (by norm_num : (2:ℚ) ≠ 0)]
              norm_num
          _ ≤ (rndA a b : ℚ) / (rndB a b : ℚ) * (2 : ℚ) ^ (-53 : ℤ) :=
              mul_le_mul_of_nonneg_right hq52 (le_of_lt (two_zpow_pos _))
    _ = (rndA a b : ℚ) / (rndB a b : ℚ) * (2 : ℚ) ^ rndE a b * (2 : ℚ) ^ (-53 : ℤ) := by
        ring

theorem posRnd_mono (a b a' b' : Nat) (ha : 1 ≤ a) (hb : 1 ≤ b)
    (ha' : 1 ≤ a') (hb' : 1 ≤ b') (h : (a : ℚ) / b ≤ (a' : ℚ) / b') :
    dval (posRnd a b) ≤ dval (posRnd a' b') := by
  have hs := ratLog2_spec a b ha hb
  have hs' := ratLog2_spec a' b' ha' hb'
  have hp : ratLog2 a b ≤ ratLog2 a' b' := by
    by_contra hcon
    push_neg at hcon
    have hlt : (a' : ℚ) / b' < (a : ℚ) / b :=
      calc (a' : ℚ) / b' < (2 : ℚ) ^ (ratLog2 a' b' + 1) := hs'.2
        _ ≤ (2 : ℚ) ^ (ratLog2 a b) := two_zpow_mono (by omega)
        _ ≤ (a : ℚ) / b := hs.1
    linarith
  rw [posRnd_dval, posRnd_dval]
  by_cases hpe : ratLog2 a b = ratLog2 a' b'
  · have he : rndE a b = rndE a' b' := by unfold rndE; omega
    rw [← he]
    apply mul_le_mul_of_nonneg_right _ (le_of_lt (two_zpow_pos _))
    have hMM : rndM a b ≤ rndM a' b' := by
      apply rhe_mono _ _ _ _ (scaledPair_B_pos a b (rndE a b) hb)
        (scaledPair_B_pos a' b' (rndE a' b') hb')
      have hv1 : (rndA a b : ℚ) / (rndB a b : ℚ)
          = ((a : ℚ) / b) * (2 : ℚ) ^ (-(rndE a b)) :=
        scaledPair_val a b (rndE a b) hb
      have hv2 : (rndA a' b' : ℚ) / (rndB a' b' : ℚ)
          = ((a' : ℚ) / b') * (2 : ℚ) ^ (-(rndE a' b')) :=
        scaledPair_val a' b' (rndE a' b') hb'
      have hABQ : (rndA a b : ℚ) / (rndB a b : ℚ)
          ≤ (rndA a' b' : ℚ) / (rndB a' b' : ℚ) := by
        rw [hv1, hv2, ← he]
        exact mul_le_mul_of_nonneg_right h (le_of_lt (two_zpow_pos _))
      rw [div_le_div_iff₀ (rndB_posQ a b hb) (rndB_posQ a' b' hb')] at hABQ
      exact_mod_cast hABQ
    exact_mod_cast hMM
  · have hM53 : (rndM a b : ℚ) ≤ (2 : ℚ) ^ (53 : ℤ) := by
      have := (rndM_range a b ha hb).2
      have hc : ((rndM a b : Nat) : ℚ) ≤ ((2 ^ 53 : Nat) : ℚ) := by exact_mod_cast this
      calc (rndM a b : ℚ) ≤ ((2 ^ 53 : Nat) : ℚ) := hc
        _ = (2 : ℚ) ^ (53 : ℤ) := by
            rw [show ((53 : ℤ)) = ((53 : Nat) : ℤ) by rfl, zpow_natCast]
            push_cast
            ring
    have hM52 : (2 : ℚ) ^ (52 : ℤ) ≤ (rndM a' b' : ℚ) := by
      have := (rndM_range a' b' ha' hb').1
      have hc : ((2 ^ 52 : Nat) : ℚ) ≤ ((rndM a' b' : Nat) : ℚ) := by exact_mod_cast this
      calc (2 : ℚ) ^ (52 : ℤ) = ((2 ^ 52 : Nat) : ℚ) := by
            rw [show ((52 : ℤ)) = ((52 : Nat) : ℤ) by rfl, zpow_natCast]
            push_cast
            ring
        _ ≤ (rndM a' b' : ℚ) := hc
    calc (rndM a b : ℚ) * (2 : ℚ) ^ rndE a b
        ≤ (2 : ℚ) ^ (53 : ℤ) * (2 : ℚ) ^ rndE a b :=
          mul_le_mul_of_nonneg_right hM53 (le_of_lt (two_zpow_pos _))
      _ = (2 : ℚ) ^ (53 + rndE a b) := by
          rw [← zpow_add₀ (by norm_num : (2:ℚ) ≠ 0)]
      _ ≤ (2 : ℚ) ^ (52 + rndE a' b') := by
          apply two_zpow_mono
          unfold rndE
          omega
      _ = (2 : ℚ) ^ (52 : ℤ) * (2 : ℚ) ^ rndE a' b' := by
          rw [← zpow_add₀ (by norm_num : (2:ℚ) ≠ 0)]
      _ ≤ (rndM a' b' : ℚ) * (2 : ℚ) ^ rndE a' b' :=
          mul_le_mul_of_nonneg_right hM52 (le_of_lt (two_zpow_pos _))

theorem dfloor_le (d : Nat × Int) : (dfloor d : ℚ) ≤ dval d := by
  unfold dfloor dval
  by_cases he : 0 ≤ d.2
  · rw [if_pos he]
    rw [show ((d.1 * 2 ^ d.2.toNat : Nat) : ℚ) = (d.1 : ℚ) * (2 : ℚ) ^ d.2 by
      push_cast
      rw [← zpow_natCast (2 : ℚ) d.2.toNat, Int.toNat_of_nonneg he]]
  · rw [if_neg he]
    calc ((d.1 / 2 ^ (-d.2).toNat : Nat) : ℚ)
        ≤ (d.1 : ℚ) / ((2 ^ (-d.2).toNat : Nat) : ℚ) := Nat.cast_div_le
      _ = (d.1 : ℚ) * (2 : ℚ) ^ d.2 := by
          rw [cast_pow_toNat (-d.2) (by omega), div_eq_mul_inv, ← zpow_neg,
            neg_neg]

theorem dfloor_lt_add_one (d : Nat × Int) : dval d < (dfloor d : ℚ) + 1 := by
  unfold dfloor dval
  by_cases he : 0 ≤ d.2
  · rw [if_pos he]
    rw [show ((d.1 * 2 ^ d.2.toNat : Nat) : ℚ) = (d.1 : ℚ) * (2 : ℚ) ^ d.2 by
      push_cast
      rw [← zpow_natCast (2 : ℚ) d.2.toNat, Int.toNat_of_nonneg he]]
    linarith
  · rw [if_neg he]
    have hk : (0 : ℚ) < ((2 ^ (-d.2).toNat : Nat) : ℚ) := by positivity
    have h1 : 2 ^ (-d.2).toNat * (d.1 / 2 ^ (-d.2).toNat) + d.1 % 2 ^ (-d.2).toNat
        = d.1 := Nat.div_add_mod _ _
    have h2 : d.1 % 2 ^ (-d.2).toNat < 2 ^ (-d.2).toNat :=
      Nat.mod_lt _ (Nat.pow_pos (by omega))
    have hnat : d.1 < (d.1 / 2 ^ (-d.2).toNat + 1) * 2 ^ (-d.2).toNat := by
      have hexp : (d.1 / 2 ^ (-d.2).toNat + 1) * 2 ^ (-d.2).toNat
          = 2 ^ (-d.2).toNat * (d.1 / 2 ^ (-d.2).toNat) + 2 ^ (-d.2).toNat := by
        ring
      rw [hexp]
      omega
    have hEq : (2 : ℚ) ^ ((-d.2).toNat) = (2 : ℚ) ^ (-d.2) := by
      rw [← zpow_natCast (2 : ℚ) (-d.2).toNat,
        Int.toNat_of_nonneg (by omega : (0:ℤ) ≤ -d.2)]
    have hcast : (d.1 : ℚ)
        < (((d.1 / 2 ^ (-d.2).toNat : Nat) : ℚ) + 1) * (2 : ℚ) ^ ((-d.2).toNat) := by
      exact_mod_cast hnat
    rw [hEq] at hcast
    have hpos : (0 : ℚ) < (2 : ℚ) ^ d.2 := two_zpow_pos _
    calc (d.1 : ℚ) * (2 : ℚ) ^ d.2
        < ((((d.1 / 2 ^ (-d.2).toNat : Nat) : ℚ) + 1) * (2 : ℚ) ^ (-d.2)) * (2 : ℚ) ^ d.2 :=
          mul_lt_mul_of_pos_right hcast hpos
      _ = ((d.1 / 2 ^ (-d.2).toNat : Nat) : ℚ) + 1 := by
          rw [mul_assoc, ← zpow_add₀ (by norm_num : (2:ℚ) ≠ 0)]
          simp

theorem dfloor_mono (d d' : Nat × Int) (h : dval d ≤ dval d') :
    dfloor d ≤ dfloor d' := by
  have h1 := dfloor_le d
  have h2 := dfloor_lt_add_one d'
  have h3 : (dfloor d : ℚ) < (dfloor d' : ℚ) + 1 := by linarith
  have h4 : dfloor d < dfloor d' + 1 := by exact_mod_cast h3
  omega

theorem dfloor_lt_nat (d : Nat × Int) (k : Nat) (h : dval d < (k : ℚ)) :
    dfloor d < k := by
  have h1 := dfloor_le d
  have : (dfloor d : ℚ) < (k : ℚ) := lt_of_le_of_lt h1 h
  exact_mod_cast this

theorem dval_nonneg (d : Nat × Int) : 0 ≤ dval d := by
  unfold dval
  positivity

theorem posRnd_self (n : Nat) (hn : 1 ≤ n) : posRnd n n = (2 ^ 52, -52) := by
  have hrl : ratLog2 n n = 0 := by
    simp [ratLog2, shiftLe]
  have hE : rndE n n = -52 := by unfold rndE; omega
  have hA : rndA n n = n * 2 ^ 52 := by
    unfold rndA scaledPair
    rw [hE, if_neg (by decide)]
    congr 1
  have hB : rndB n n = n := by
    unfold rndB scaledPair
    rw [hE, if_neg (by decide)]
  have hM : rndM n n = 2 ^ 52 := by
    unfold rndM
    rw [hA, hB]
    unfold rhe
    have hq : n * 2 ^ 52 / n = 2 ^ 52 :=
      Nat.mul_div_cancel_left _ (by omega)
    have hr : n * 2 ^ 52 % n = 0 := Nat.mul_mod_right n _
    rw [hq, hr]
    have hpos : 2 * 0 < n := by omega
    rw [if_pos hpos]
  unfold posRnd
  rw [hM, hE]
  norm_num

theorem mul100_pair (d : Nat × Int) (hd : 1 ≤ d.1) :
    1 ≤ (scaledPair (100 * d.1) 1 (-d.2)).1 ∧
    1 ≤ (scaledPair (100 * d.1) 1 (-d.2)).2 ∧
    ((scaledPair (100 * d.1) 1 (-d.2)).1 : ℚ)
        / ((scaledPair (100 * d.1) 1 (-d.2)).2 : ℚ) = 100 * dval d := by
  refine ⟨scaledPair_A_pos _ 1 _ (by omega), scaledPair_B_pos _ 1 _ le_rfl, ?_⟩
  rw [scaledPair_val _ 1 _ le_rfl]
  unfold dval
  push_cast
  rw [neg_neg, div_one]
  ring

theorem pyFloatPct_self (n : Nat) (hn : 1 ≤ n) : pyFloatPct n n = 100 := by
  unfold pyFloatPct
  rw [if_neg (by omega), posRnd_self n hn]
  decide

theorem zpow_neg52 : (2 : ℚ) ^ (-52 : ℤ) = 1 / 2 ^ 52 := by
  rw [zpow_neg, one_div]
  congr 1
  rw [show ((52 : ℤ)) = ((52 : Nat) : ℤ) by rfl, zpow_natCast]

theorem zpow_neg53 : (2 : ℚ) ^ (-53 : ℤ) = 1 / 2 ^ 53 := by
  rw [zpow_neg, one_div]
  congr 1
  rw [show ((53 : ℤ)) = ((53 : Nat) : ℤ) by rfl, zpow_natCast]

theorem posRnd_ub (a b : Nat) (ha : 1 ≤ a) (hb : 1 ≤ b) :
    dval (posRnd a b) ≤ ((a : ℚ) / b) * (1 + (2 : ℚ) ^ (-53 : ℤ)) := by
  have h := (abs_le.mp (posRnd_err a b ha hb)).2
  nlinarith [h]

theorem pyFloatPct_lt_100 (c n : Nat) (hc : 1 ≤ c) (hcn : c < n)
    (hn : n ≤ 2 ^ 52) : pyFloatPct c n < 100 := by
  have hn1 : 1 ≤ n := by omega
  have hnQ : (0 : ℚ) < (n : ℚ) := by exact_mod_cast hn1
  unfold pyFloatPct
  rw [if_neg (by omega)]
  have hxub : (c : ℚ) / n ≤ 1 - (2 : ℚ) ^ (-52 : ℤ) := by
    have h1n : (2 : ℚ) ^ (-52 : ℤ) ≤ 1 / (n : ℚ) := by
      rw [zpow_neg52]
      apply one_div_le_one_div_of_le hnQ
      exact_mod_cast hn
    have hcn1 : (c : ℚ) ≤ (n : ℚ) - 1 := by
      have : (c : ℚ) + 1 ≤ (n : ℚ) := by exact_mod_cast hcn
      linarith
    have hstep : (c : ℚ) / n ≤ ((n : ℚ) - 1) / n := by
      gcongr
    calc (c : ℚ) / n ≤ ((n : ℚ) - 1) / n := hstep
      _ = 1 - 1 / n := by field_simp
      _ ≤ 1 - (2 : ℚ) ^ (-52 : ℤ) := by linarith
  have hxpos : (0 : ℚ) < (c : ℚ) / n := by positivity
  have hy := posRnd_ub c n hc hn1
  have hy1 : 1 ≤ (posRnd c n).1 := by
    have := (posRnd_fst_range c n hc hn1).1
    omega
  have hpair := mul100_pair (posRnd c n) hy1
  have hz := posRnd_ub _ _ hpair.1 hpair.2.1
  rw [hpair.2.2] at hz
  have hynn : 0 ≤ dval (posRnd c n) := dval_nonneg _
  have hfinal : dval (mul100 (posRnd c n)) < 100 := by
    have hb1 : dval (posRnd c n)
        ≤ (1 - (2 : ℚ) ^ (-52 : ℤ)) * (1 + (2 : ℚ) ^ (-53 : ℤ)) := by
      calc dval (posRnd c n) ≤ ((c : ℚ) / n) * (1 + (2 : ℚ) ^ (-53 : ℤ)) := hy
        _ ≤ (1 - (2 : ℚ) ^ (-52 : ℤ)) * (1 + (2 : ℚ) ^ (-53 : ℤ)) := by
            apply mul_le_mul_of_nonneg_right hxub
            rw [zpow_neg53]
            norm_num
    calc dval (mul100 (posRnd c n))
        ≤ (100 * dval (posRnd c n)) * (1 + (2 : ℚ) ^ (-53 : ℤ)) := hz
      _ ≤ (100 * ((1 - (2 : ℚ) ^ (-52 : ℤ)) * (1 + (2 : ℚ) ^ (-53 : ℤ))))
            * (1 + (2 : ℚ) ^ (-53 : ℤ)) := by
          apply mul_le_mul_of_nonneg_right _ (by rw [zpow_neg53]; norm_num)
          apply mul_le_mul_of_nonneg_left hb1 (by norm_num)
      _ < 100 := by
          rw [zpow_neg52, zpow_neg53]
          norm_num
  exact dfloor_lt_nat _ 100 (by exact_mod_cast hfinal)

theorem pyFloatPct_mono (c c' t : Nat) (h : c ≤ c') :
    pyFloatPct c t ≤ pyFloatPct c' t := by
  by_cases ht : t = 0
  · simp [pyFloatPct, ht]
  by_cases hc : c = 0
  · rw [show pyFloatPct c t = 0 by simp [pyFloatPct, hc]]
    exact Nat.zero_le _
  have hc1 : 1 ≤ c := by omega
  have hc1' : 1 ≤ c' := by omega
  have ht1 : 1 ≤ t := by omega
  have htQ : (0 : ℚ) < (t : ℚ) := by exact_mod_cast ht1
  unfold pyFloatPct
  rw [if_neg (by omega), if_neg (by omega)]
  have hyy : dval (posRnd c t) ≤ dval (posRnd c' t) := by
    apply posRnd_mono c t c' t hc1 ht1 hc1' ht1
    have hQ : (c : ℚ) ≤ (c' : ℚ) := by exact_mod_cast h
    gcongr
  have hy1 : 1 ≤ (posRnd c t).1 := by
    have := (posRnd_fst_range c t hc1 ht1).1
    omega
  have hy1' : 1 ≤ (posRnd c' t).1 := by
    have := (posRnd_fst_range c' t hc1' ht1).1
    omega
  have hp := mul100_pair (posRnd c t) hy1
  have hp' := mul100_pair (posRnd c' t) hy1'
  have hz : dval (mul100 (posRnd c t)) ≤ dval (mul100 (posRnd c' t)) := by
    apply posRnd_mono _ _ _ _ hp.1 hp.2.1 hp'.1 hp'.2.1
    rw [hp.2.2, hp'.2.2]
    linarith
  exact dfloor_mono _ _ hz

end PyFloat

namespace ScrapeExec

open PyFloat

/-- Outcome of processing a single target inside
`ScrapeExecutor.execute_job`: the target document is missing
(`_get_target` returns `None`), scraping and analysis succeed returning
`resultsCount` stored results, or `_scrape_and_analyze_target` raises an
exception with message `msg`. -/
inductive TargetOutcome where
  | notFound : TargetOutcome
  | ok : Nat → TargetOutcome
  | raises : String → TargetOutcome
deriving DecidableEq, Repr

/-- `ScrapeJob.status` values touched by the executor. -/
inductive JobStatus where
  | queued | running | completed | failed | cancelled
deriving DecidableEq, Repr

/-- Per-target status values (`TargetJobStatus.status`). -/
inductive TStatus where
  | pending | running | completed | failed
deriving DecidableEq, Repr

/-- One entry of `ScrapeJob.targets` (`TargetJobStatus`). -/
structure TargetRec where
  targetId : Nat
  status : TStatus
  progress : Nat
  resultsCount : Nat
  error : Option String
deriving DecidableEq, Repr

/-- The `ScrapeJobStats` fields the executor touches. -/
structure Stats where
  targetsTotal : Nat
  targetsCompleted : Nat
  resultsTotal : Nat
  errorsCount : Nat
deriving DecidableEq, Repr

/-- The scrape-job document as the executor's repository writes shape it. -/
structure JobRec where
  status : JobStatus
  progress : Nat
  stats : Stats
  targets : List TargetRec
  errorMessage : Option String
deriving DecidableEq, Repr

/-- Loop-local counters of `execute_job`: `stats.targets_completed`,
`stats.results_total`, `stats.errors_count` as accumulated by the
`increment_stats` calls. -/
structure Counters where
  tc : Nat
  rt : Nat
  ec : Nat
deriving DecidableEq, Repr

/-- A target entry as `create_job` initialises it. -/
def initTarget (tid : Nat) : TargetRec :=
  { targetId := tid, status := .pending, progress := 0, resultsCount := 0,
    error := none }

/-- The final target entry written for a target with the given outcome
(`update_target_status` with status `failed`/`completed`; a failed write
passes `progress=0, results_count=0` and sets `error`). -/
def outcomeTarget (tid : Nat) : TargetOutcome → TargetRec
  | .notFound => { targetId := tid, status := .failed, progress := 0,
                   resultsCount := 0, error := some "Target not found" }
  | .ok m => { targetId := tid, status := .completed, progress := 100,
               resultsCount := m, error := none }
  | .raises msg => { targetId := tid, status := .failed, progress := 0,
                     resultsCount := 0, error := some msg }

/-- Assemble the job document during the target loop: fixed
`targetsTotal`, current job status/progress/counters, the already
processed targets `pre`, the current target's entry `cur`, and the not
yet touched targets of `rest` in their initial form. -/
def mkRec (n : Nat) (st : JobStatus) (prog : Nat) (cs : Counters)
    (pre cur : List TargetRec) (rest : List (Nat × TargetOutcome)) : JobRec :=
  { status := st, progress := prog,
    stats := { targetsTotal := n, targetsCompleted := cs.tc,
               resultsTotal := cs.rt, errorsCount := cs.ec },
    targets := pre ++ cur ++ rest.map (fun p => initTarget p.1),
    errorMessage := none }

/-- The target loop of `execute_job` (lines 60-124), as the list of job
documents after each repository write, grouped into one block per loop
iteration plus a final block for the write after the loop.  Arguments:
`n` the job's `targetsTotal`; `cA` the iteration index at which the
worker observes `self._cancelled` (if any); `i` the current iteration
index; `prog`, `cs`, `ct` the current job progress, stats counters, and
the `completed_targets` local variable; `pre` the entries of already
processed targets; the list argument the remaining targets with their
outcomes.  A missing target (`continue` at line 85) increments
`errors_count` but skips both the `completed_targets` increment and the
progress write; an exception is caught, recorded, and then the progress
write still happens (lines 108-121). -/
def loopBlocks (n : Nat) (cA : Option Nat) :
    Nat → Nat → Counters → Nat → List TargetRec →
    List (Nat × TargetOutcome) → List (List JobRec)
  | _, prog, cs, _, pre, [] =>
      [[mkRec n .completed prog cs pre [] []]]
  | i, prog, cs, ct, pre, (tid, o) :: rest =>
      if cA = some i then
        [[mkRec n .cancelled prog cs pre [initTarget tid] rest]]
      else
        let tRun : TargetRec :=
          { targetId := tid, status := .running, progress := 0,
            resultsCount := 0, error := none }
        let e1 := mkRec n .running prog cs pre [tRun] rest
        match o with
        | .notFound =>
            let tF := outcomeTarget tid .notFound
            let e2 := mkRec n .running prog cs pre [tF] rest
            let cs2 : Counters := { cs with ec := cs.ec + 1 }
            let e3 := mkRec n .running prog cs2 pre [tF] rest
            [e1, e2, e3] :: loopBlocks n cA (i + 1) prog cs2 ct (pre ++ [tF]) rest
        | .ok m =>
            let tC := outcomeTarget tid (.ok m)
            let e2 := mkRec n .running prog cs pre [tC] rest
            let cs2 : Counters := { cs with tc := cs.tc + 1 }
            let e3 := mkRec n .running prog cs2 pre [tC] rest
            let cs3 : Counters := { cs2 with rt := cs2.rt + m }
            let e4 := mkRec n .running prog cs3 pre [tC] rest
            let prog2 := pyFloatPct (ct + 1) n
            let e5 := mkRec n .running prog2 cs3 pre [tC] rest
            [e1, e2, e3, e4, e5] ::
              loopBlocks n cA (i + 1) prog2 cs3 (ct + 1) (pre ++ [tC]) rest
        | .raises msg =>
            let tF := outcomeTarget tid (.raises msg)
            let e2 := mkRec n .running prog cs pre [tF] rest
            let cs2 : Counters := { cs with ec := cs.ec + 1 }
            let e3 := mkRec n .running prog cs2 pre [tF] rest
            let prog2 := pyFloatPct (ct + 1) n
            let e4 := mkRec n .running prog2 cs2 pre [tF] rest
            [e1, e2, e3, e4] ::
              loopBlocks n cA (i + 1) prog2 cs2 (ct + 1) (pre ++ [tF]) rest

/-- The job document as `create_job` writes it (`create_job` raises a
400 error when the target list is empty, so only non-empty jobs exist;
initial status `queued`, progress 0, zeroed stats). -/
def createJob (ids : List Nat) : Option JobRec :=
  if ids.isEmpty then none
  else some
    { status := .queued, progress := 0,
      stats := { targetsTotal := ids.length, targetsCompleted := 0,
                 resultsTotal := 0, errorsCount := 0 },
      targets := ids.map initTarget, errorMessage := none }

/-- The trace of job documents over one run of
`ScrapeExecutor.execute_job`: the created document, the `running`
status write (line 46), then either the `failed` write when constructing
the `SentimatrixService` raises (`setup = some msg`, lines 130-132), or
the target loop followed by the `completed` / `cancelled` status write. -/
def execTrace (setup : Option String) (ts : List (Nat × TargetOutcome))
    (cA : Option Nat) : List JobRec :=
  let n := ts.length
  let j0 : JobRec :=
    { status := .queued, progress := 0,
      stats := { targetsTotal := n, targetsCompleted := 0,
                 resultsTotal := 0, errorsCount := 0 },
      targets := ts.map (fun p => initTarget p.1), errorMessage := none }
  let j1 := { j0 with status := JobStatus.running }
  match setup with
  | some msg =>
      [j0, j1, { j1 with
                 status := JobStatus.failed,
                 errorMessage := some msg }]
  | none => j0 :: j1 :: (loopBlocks n cA 0 0 ⟨0, 0, 0⟩ 0 [] ts).flatten

/-- Placeholder record used as the (never reached) default of list
lookups. -/
def dummyRec : JobRec :=
  { status := .queued, progress := 0,
    stats := { targetsTotal := 0, targetsCompleted := 0, resultsTotal := 0,
               errorsCount := 0 },
    targets := [], errorMessage := none }

/-- The job document at the end of a run. -/
def finalJob (setup : Option String) (ts : List (Nat × TargetOutcome))
    (cA : Option Nat) : JobRec :=
  (execTrace setup ts cA).getLastD dummyRec

/-- The per-target blocks of an uncancelled run, used to speak about
"the job document stored after processing target `k`". -/
def targetBlocks (ts : List (Nat × TargetOutcome)) : List (List JobRec) :=
  loopBlocks ts.length none 0 0 ⟨0, 0, 0⟩ 0 [] ts

/-- The job document stored after the last repository write of the
`k`-th loop iteration of an uncancelled run. -/
def storedAfterTarget (ts : List (Nat × TargetOutcome)) (k : Nat) : JobRec :=
  ((targetBlocks ts).getD k []).getLastD dummyRec

/-- The job-level `round(100 * targetsDone / targetsTotal)` formula as
the spec states it (rounding to the nearest integer, halves up), for
comparison with the code's truncation. -/
def specRoundPct (completed total : Nat) : Nat :=
  (200 * completed + total) / (2 * total)

/-- Progress comparison between consecutive trace entries. -/
def progLe (a b : JobRec) : Prop := a.progress ≤ b.progress

def isOk : TargetOutcome → Bool
  | .ok _ => true
  | _ => false

def isErr : TargetOutcome → Bool
  | .ok _ => false
  | _ => true

theorem loopBlocks_flatten_ne_nil (n : Nat) (cA : Option Nat) :
    ∀ (rest : List (Nat × TargetOutcome)) (i prog : Nat) (cs : Counters)
      (ct : Nat) (pre : List TargetRec),
      (loopBlocks n cA i prog cs ct pre rest).flatten ≠ [] := by
  intro rest
  induction rest with
  | nil => intro i prog cs ct pre; simp [loopBlocks]
  | cons hd tl ih =>
      intro i prog cs ct pre
      obtain ⟨tid, o⟩ := hd
      by_cases hc : cA = some i
      · simp [loopBlocks, hc]
      · cases o <;> simp [loopBlocks, hc]

theorem getLastD_irrel {α : Type} (l : List α) (h : l ≠ []) (d d' : α) :
    l.getLastD d = l.getLastD d' := by
  cases l with
  | nil => exact absurd rfl h
  | cons a t => rw [List.getLastD_cons, List.getLastD_cons]

theorem getLastD_append_right {α : Type} (l₁ l₂ : List α) (d : α)
    (h : l₂ ≠ []) : (l₁ ++ l₂).getLastD d = l₂.getLastD d := by
  induction l₁ generalizing d with
  | nil => rfl
  | cons a t ih =>
      rw [List.cons_append, List.getLastD_cons, ih, getLastD_irrel l₂ h]

/-- Final state of an uncancelled run of the target loop: the job is
written `completed`; `targets_completed` counts exactly the targets with
successful outcomes; `errors_count` counts exactly the targets that were
missing or raised; each target entry ends in the output of its own
outcome. -/
theorem loop_final_stats (n : Nat) :
    ∀ (rest : List (Nat × TargetOutcome)) (i prog : Nat) (cs : Counters)
      (ct : Nat) (pre : List TargetRec),
      (((loopBlocks n none i prog cs ct pre rest).flatten.getLastD dummyRec).status
          = JobStatus.completed) ∧
      (((loopBlocks n none i prog cs ct pre rest).flatten.getLastD dummyRec).stats.targetsCompleted
          = cs.tc + (rest.filter (fun p => isOk p.2)).length) ∧
      (((loopBlocks n none i prog cs ct pre rest).flatten.getLastD dummyRec).stats.errorsCount
          = cs.ec + (rest.filter (fun p => isErr p.2)).length) ∧
      (((loopBlocks n none i prog cs ct pre rest).flatten.getLastD dummyRec).targets
          = pre ++ rest.map (fun p => outcomeTarget p.1 p.2)) := by
  intro rest
  induction rest with
  | nil => intro i prog cs ct pre; simp [loopBlocks, mkRec]
  | cons hd tl ih =>
      intro i prog cs ct pre
      obtain ⟨tid, o⟩ := hd
      cases o with
      | notFound =>
          have hne := loopBlocks_flatten_ne_nil n none tl (i + 1) prog
            { cs with ec := cs.ec + 1 } ct (pre ++ [outcomeTarget tid .notFound])
          have h := ih (i + 1) prog { cs with ec := cs.ec + 1 } ct
            (pre ++ [outcomeTarget tid .notFound])
          simp only [loopBlocks, reduceCtorEq, if_false, List.flatten_cons,
            List.cons_append, List.nil_append, List.getLastD_cons]
          rw [getLastD_irrel _ hne _ dummyRec]
          refine ⟨h.1, ?_, ?_, ?_⟩
          · rw [h.2.1]; simp [isOk]
          · rw [h.2.2.1]; simp [isErr]; omega
          · rw [h.2.2.2]; simp [outcomeTarget]
      | ok m =>
          have hne := loopBlocks_flatten_ne_nil n none tl (i + 1)
            (pyFloatPct (ct + 1) n)
            { cs with tc := cs.tc + 1, rt := cs.rt + m } (ct + 1)
            (pre ++ [outcomeTarget tid (.ok m)])
          have h := ih (i + 1) (pyFloatPct (ct + 1) n)
            { cs with tc := cs.tc + 1, rt := cs.rt + m } (ct + 1)
            (pre ++ [outcomeTarget tid (.ok m)])
          simp only [loopBlocks, reduceCtorEq, if_false, List.flatten_cons,
            List.cons_append, List.nil_append, List.getLastD_cons]
          rw [getLastD_irrel _ hne _ dummyRec]
          refine ⟨h.1, ?_, ?_, ?_⟩
          · rw [h.2.1]; simp [isOk]; omega
          · rw [h.2.2.1]; simp [isErr]
          · rw [h.2.2.2]; simp [outcomeTarget]
      | raises msg =>
          have hne := loopBlocks_flatten_ne_nil n none tl (i + 1)
            (pyFloatPct (ct + 1) n) { cs with ec := cs.ec + 1 } (ct + 1)
            (pre ++ [outcomeTarget tid (.raises msg)])
          have h := ih (i + 1) (pyFloatPct (ct + 1) n)
            { cs with ec := cs.ec + 1 } (ct + 1)
            (pre ++ [outcomeTarget tid (.raises msg)])
          simp only [loopBlocks, reduceCtorEq, if_false, List.flatten_cons,
            List.cons_append, List.nil_append, List.getLastD_cons]
          rw [getLastD_irrel _ hne _ dummyRec]
          refine ⟨h.1, ?_, ?_, ?_⟩
          · rw [h.2.1]; simp [isOk]
          · rw [h.2.2.1]; simp [isErr]; omega
          · rw [h.2.2.2]; simp [outcomeTarget]

/-- Final state of a run of the target loop in which no target was
missing: either the run finishes all targets and is written `completed`
with progress exactly 100, or it is cancelled mid-way with progress
strictly below 100. -/
theorem loop_final_iff (n : Nat) (hn : 0 < n) (hn2 : n ≤ 2 ^ 52) :
    ∀ (rest : List (Nat × TargetOutcome)) (cA : Option Nat) (i : Nat)
      (cs : Counters) (ct : Nat) (pre : List TargetRec),
      ct + rest.length = n →
      (∀ p ∈ rest, p.2 ≠ TargetOutcome.notFound) →
      ((((loopBlocks n cA i (pyFloatPct ct n) cs ct pre rest).flatten.getLastD dummyRec).status
            = JobStatus.completed ∧
        ((loopBlocks n cA i (pyFloatPct ct n) cs ct pre rest).flatten.getLastD dummyRec).progress
            = 100) ∨
       (((loopBlocks n cA i (pyFloatPct ct n) cs ct pre rest).flatten.getLastD dummyRec).status
            = JobStatus.cancelled ∧
        ((loopBlocks n cA i (pyFloatPct ct n) cs ct pre rest).flatten.getLastD dummyRec).progress
            < 100)) := by
  intro rest
  induction rest with
  | nil =>
      intro cA i cs ct pre hlen _
      left
      have hct : ct = n := by simpa using hlen
      have h100 : pyFloatPct ct n = 100 := by
        rw [hct]; exact pyFloatPct_self n hn
      simp [loopBlocks, mkRec, h100]
  | cons hd tl ih =>
      intro cA i cs ct pre hlen hf
      obtain ⟨tid, o⟩ := hd
      have hctlt : ct < n := by simp at hlen; omega
      by_cases hc : cA = some i
      · right
        have hlt : pyFloatPct ct n < 100 := by
          rcases Nat.eq_zero_or_pos ct with hct0 | hct0
          · have h0 : pyFloatPct ct n = 0 := by simp [pyFloatPct, hct0]
            omega
          · exact pyFloatPct_lt_100 ct n hct0 hctlt hn2
        simp [loopBlocks, hc, mkRec, hlt]
      · have ho : o ≠ TargetOutcome.notFound := hf (tid, o) (by simp)
        cases o with
        | notFound => exact absurd rfl ho
        | ok m =>
            have hne := loopBlocks_flatten_ne_nil n cA tl (i + 1)
              (pyFloatPct (ct + 1) n)
              { cs with tc := cs.tc + 1, rt := cs.rt + m } (ct + 1)
              (pre ++ [outcomeTarget tid (.ok m)])
            have h := ih cA (i + 1)
              { cs with tc := cs.tc + 1, rt := cs.rt + m } (ct + 1)
              (pre ++ [outcomeTarget tid (.ok m)])
              (by simp at hlen ⊢; omega)
              (fun p hp => hf p (by simp [hp]))
            simp only [loopBlocks, hc, if_false, List.flatten_cons,
              List.cons_append, List.nil_append, List.getLastD_cons]
            rw [getLastD_irrel _ hne _ dummyRec]
            exact h
        | raises msg =>
            have hne := loopBlocks_flatten_ne_nil n cA tl (i + 1)
              (pyFloatPct (ct + 1) n) { cs with ec := cs.ec + 1 } (ct + 1)
              (pre ++ [outcomeTarget tid (.raises msg)])
            have h := ih cA (i + 1) { cs with ec := cs.ec + 1 } (ct + 1)
              (pre ++ [outcomeTarget tid (.raises msg)])
              (by simp at hlen ⊢; omega)
              (fun p hp => hf p (by simp [hp]))
            simp only [loopBlocks, hc, if_false, List.flatten_cons,
              List.cons_append, List.nil_append, List.getLastD_cons]
            rw [getLastD_irrel _ hne _ dummyRec]
            exact h

/-- Along any run of the target loop, consecutive write states have
non-decreasing job progress, and the first write state still carries the
progress the loop was entered with. -/
theorem loop_chain (n : Nat) :
    ∀ (rest : List (Nat × TargetOutcome)) (cA : Option Nat) (i : Nat)
      (cs : Counters) (ct : Nat) (pre : List TargetRec),
      List.Chain' progLe
        ((loopBlocks n cA i (pyFloatPct ct n) cs ct pre rest).flatten) ∧
      ∃ x, ((loopBlocks n cA i (pyFloatPct ct n) cs ct pre rest).flatten).head?
            = some x ∧ x.progress = pyFloatPct ct n := by
  intro rest
  induction rest with
  | nil =>
      intro cA i cs ct pre
      exact ⟨by simp [loopBlocks], by simp [loopBlocks, mkRec]⟩
  | cons hd tl ih =>
      intro cA i cs ct pre
      obtain ⟨tid, o⟩ := hd
      by_cases hc : cA = some i
      · exact ⟨by simp [loopBlocks, hc], by simp [loopBlocks, hc, mkRec]⟩
      · cases o with
        | notFound =>
            have h := ih cA (i + 1) { cs with ec := cs.ec + 1 } ct
              (pre ++ [outcomeTarget tid .notFound])
            obtain ⟨hch, x, hx, hxp⟩ := h
            constructor
            · simp only [loopBlocks, hc, if_false, List.flatten_cons,
                List.cons_append, List.nil_append]
              rw [List.chain'_cons, List.chain'_cons]
              refine ⟨le_refl _, le_refl _, List.chain'_cons'.mpr ⟨?_, hch⟩⟩
              intro y hy
              rw [hx] at hy
              simp at hy
              subst hy
              show (mkRec n JobStatus.running (pyFloatPct ct n) _ _ _ _).progress ≤ x.progress
              rw [hxp]; simp [mkRec]
            · simp only [loopBlocks, hc, if_false, List.flatten_cons,
                List.cons_append, List.nil_append, List.head?_cons]
              exact ⟨_, rfl, rfl⟩
        | ok m =>
            have h := ih cA (i + 1)
              { cs with tc := cs.tc + 1, rt := cs.rt + m } (ct + 1)
              (pre ++ [outcomeTarget tid (.ok m)])
            obtain ⟨hch, x, hx, hxp⟩ := h
            constructor
            · simp only [loopBlocks, hc, if_false, List.flatten_cons,
                List.cons_append, List.nil_append]
              rw [List.chain'_cons, List.chain'_cons, List.chain'_cons,
                List.chain'_cons]
              refine ⟨le_refl _, le_refl _, le_refl _,
                pyFloatPct_mono ct (ct + 1) n (Nat.le_succ ct), List.chain'_cons'.mpr ⟨?_, hch⟩⟩
              intro y hy
              rw [hx] at hy
              simp at hy
              subst hy
              show (mkRec n JobStatus.running (pyFloatPct (ct + 1) n) _ _ _ _).progress ≤ x.progress
              rw [hxp]; simp [mkRec]
            · simp only [loopBlocks, hc, if_false, List.flatten_cons,
                List.cons_append, List.nil_append, List.head?_cons]
              exact ⟨_, rfl, rfl⟩
        | raises msg =>
            have h := ih cA (i + 1) { cs with ec := cs.ec + 1 } (ct + 1)
              (pre ++ [outcomeTarget tid (.raises msg)])
            obtain ⟨hch, x, hx, hxp⟩ := h
            constructor
            · simp only [loopBlocks, hc, if_false, List.flatten_cons,
                List.cons_append, List.nil_append]
              rw [List.chain'_cons, List.chain'_cons, List.chain'_cons]
              refine ⟨le_refl _, le_refl _,
                pyFloatPct_mono ct (ct + 1) n (Nat.le_succ ct), List.chain'_cons'.mpr ⟨?_, hch⟩⟩
              intro y hy
              rw [hx] at hy
              simp at hy
              subst hy
              show (mkRec n JobStatus.running (pyFloatPct (ct + 1) n) _ _ _ _).progress ≤ x.progress
              rw [hxp]; simp [mkRec]
            · simp only [loopBlocks, hc, if_false, List.flatten_cons,
                List.cons_append, List.nil_append, List.head?_cons]
              exact ⟨_, rfl, rfl⟩

/-- The trace of any `execute_job` run has non-decreasing job progress. -/
theorem execTrace_chain (setup : Option String)
    (ts : List (Nat × TargetOutcome)) (cA : Option Nat) :
    List.Chain' progLe (execTrace setup ts cA) := by
  cases setup with
  | some msg =>
      simp only [execTrace]
      rw [List.chain'_cons, List.chain'_cons]
      exact ⟨le_refl _, le_refl _, List.chain'_singleton _⟩
  | none =>
      have h0 : pyFloatPct 0 ts.length = 0 := by simp [pyFloatPct]
      have h := loop_chain ts.length ts cA 0 ⟨0, 0, 0⟩ 0 []
      rw [h0] at h
      obtain ⟨hch, x, hx, hxp⟩ := h
      simp only [execTrace]
      rw [List.chain'_cons]
      refine ⟨le_refl _, List.chain'_cons'.mpr ⟨?_, hch⟩⟩
      intro y hy
      rw [hx] at hy
      simp at hy
      subst hy
      show (0 : Nat) ≤ x.progress
      exact Nat.zero_le _

/-- C3 counterexample: a job whose single target is missing from the
database ends with status `completed` but progress 0, because the
`continue` in the target-not-found branch skips the progress update. -/
theorem scrape_completed_progress_counterexample :
    (finalJob none [(7, TargetOutcome.notFound)] none).status
        = JobStatus.completed ∧
      (finalJob none [(7, TargetOutcome.notFound)] none).progress ≠ 100 := by
  decide

/-- C3 (amended): over every run of `execute_job` — including runs with
failed setup, cancellation, or missing targets — the job progress is
monotonically non-decreasing; and for jobs in which every target is
found (no target skipped by the not-found `continue`) and with at most
`2 ^ 52` targets (beyond which the binary64 progress arithmetic itself
can report 100 early), the final status is `completed` exactly when the
final progress is 100. -/
theorem scrape_progress_monotone_and_completed_iff
    (setup : Option String) (ts : List (Nat × TargetOutcome))
    (cA : Option Nat) :
    List.Chain' progLe (execTrace setup ts cA) ∧
      (ts ≠ [] → (∀ p ∈ ts, p.2 ≠ TargetOutcome.notFound) →
        ts.length ≤ 2 ^ 52 →
        ((finalJob setup ts cA).status = JobStatus.completed ↔
          (finalJob setup ts cA).progress = 100)) := by
  refine ⟨execTrace_chain setup ts cA, ?_⟩
  intro hne hfound hlen
  cases setup with
  | some msg =>
      simp [finalJob, execTrace, List.getLastD_cons]
  | none =>
      have hn : 0 < ts.length := List.length_pos.mpr hne
      have hne2 := loopBlocks_flatten_ne_nil ts.length cA ts 0 0 ⟨0, 0, 0⟩ 0 []
      have h0 : pyFloatPct 0 ts.length = 0 := by simp [pyFloatPct]
      have h := loop_final_iff ts.length hn hlen ts cA 0 ⟨0, 0, 0⟩ 0 []
        (by simp) hfound
      rw [h0] at h
      have hfj : finalJob none ts cA
          = ((loopBlocks ts.length cA 0 0 ⟨0, 0, 0⟩ 0 [] ts).flatten.getLastD
              dummyRec) := by
        simp only [finalJob, execTrace, List.getLastD_cons]
        exact getLastD_irrel _ hne2 _ _
      rw [hfj]
      rcases h with ⟨hs, hp⟩ | ⟨hs, hp⟩
      · exact iff_of_true hs hp
      · rw [hs]
        constructor
        · intro hcc; cases hcc
        · intro hpp; omega

/-- C3 witness -/
theorem scrape_progress_monotone_and_completed_iff_witness :
    List.Chain' progLe (execTrace none [(1, TargetOutcome.ok 2)] none) ∧
      ((finalJob none [(1, TargetOutcome.ok 2)] none).status
          = JobStatus.completed ↔
        (finalJob none [(1, TargetOutcome.ok 2)] none).progress = 100) :=
  ⟨(scrape_progress_monotone_and_completed_iff none
      [(1, TargetOutcome.ok 2)] none).1,
    (scrape_progress_monotone_and_completed_iff none
      [(1, TargetOutcome.ok 2)] none).2 (by decide) (by decide)
      (by norm_num)⟩

/-- Progress stored by the `k`-th iteration of an uncancelled run of the
target loop with no missing target: it is the truncated percentage of
`ct + k + 1` out of `n`. -/
theorem loopBlocks_getD_progress (n : Nat) :
    ∀ (rest : List (Nat × TargetOutcome)) (i : Nat) (cs : Counters)
      (ct : Nat) (pre : List TargetRec) (k : Nat),
      (∀ p ∈ rest, p.2 ≠ TargetOutcome.notFound) → k < rest.length →
      (((loopBlocks n none i (pyFloatPct ct n) cs ct pre rest).getD k []).getLastD
          dummyRec).progress = pyFloatPct (ct + k + 1) n := by
  intro rest
  induction rest with
  | nil => intro i cs ct pre k _ hk; exact absurd hk (by simp)
  | cons hd tl ih =>
      intro i cs ct pre k hf hk
      obtain ⟨tid, o⟩ := hd
      have ho : o ≠ TargetOutcome.notFound := hf (tid, o) (by simp)
      cases o with
      | notFound => exact absurd rfl ho
      | ok m =>
          cases k with
          | zero =>
              simp [loopBlocks, mkRec, List.getLastD_cons]
          | succ k2 =>
              have h := ih (i + 1) { cs with tc := cs.tc + 1, rt := cs.rt + m }
                (ct + 1) (pre ++ [outcomeTarget tid (.ok m)]) k2
                (fun p hp => hf p (by simp [hp])) (by simp at hk; omega)
              have harg : ct + 1 + k2 + 1 = ct + (k2 + 1) + 1 := by omega
              rw [harg] at h
              simpa [loopBlocks, List.getD_cons_succ] using h
      | raises msg =>
          cases k with
          | zero =>
              simp [loopBlocks, mkRec, List.getLastD_cons]
          | succ k2 =>
              have h := ih (i + 1) { cs with ec := cs.ec + 1 }
                (ct + 1) (pre ++ [outcomeTarget tid (.raises msg)]) k2
                (fun p hp => hf p (by simp [hp])) (by simp at hk; omega)
              have harg : ct + 1 + k2 + 1 = ct + (k2 + 1) + 1 := by omega
              rw [harg] at h
              simpa [loopBlocks, List.getD_cons_succ] using h

/-- C4 counterexample: for a job of 3 targets, after target 2 is
processed the stored progress is `int((2/3)*100) = 66`, while the
claimed formula `round(100*2/3)` yields 67. -/
theorem scrape_progress_rounding_counterexample :
    (storedAfterTarget
        [(1, TargetOutcome.ok 0), (2, TargetOutcome.ok 0),
         (3, TargetOutcome.ok 0)] 1).progress = 66 ∧
      specRoundPct 2 3 = 67 := by
  decide

/-- C4 (amended): in an uncancelled run with no missing target, after
processing the `k`-th target the stored job progress is exactly the
binary64 evaluation of `int((targetsDone / targetsTotal) * 100)`
(`pyFloatPct`), which truncates rather than rounds — 2 of 3 targets
stores 66, not `round(200/3) = 67` — and which can even fall below the
exact floor `(100 * done) / total`: 29 of 100 targets stores 28, not
29, because `29/100 * 100` rounds to just under 29 in binary64. -/
theorem scrape_progress_truncated_formula
    (ts : List (Nat × TargetOutcome))
    (hfound : ∀ p ∈ ts, p.2 ≠ TargetOutcome.notFound)
    (k : Nat) (hk : k < ts.length) :
    (storedAfterTarget ts k).progress = pyFloatPct (k + 1) ts.length ∧
      pyFloatPct 2 3 = 66 ∧
      pyFloatPct 29 100 = 28 ∧ (100 * 29) / 100 = 29 := by
  refine ⟨?_, by decide, by decide, by decide⟩
  have h0 : pyFloatPct 0 ts.length = 0 := by simp [pyFloatPct]
  have h := loopBlocks_getD_progress ts.length ts 0 ⟨0, 0, 0⟩ 0 [] k hfound hk
  rw [h0] at h
  have harg : 0 + k + 1 = k + 1 := by omega
  rw [harg] at h
  exact h

/-- C4 witness -/
theorem scrape_progress_truncated_formula_witness :
    ((∀ p ∈ [((1 : Nat), TargetOutcome.ok 0), (2, TargetOutcome.ok 1)],
        p.2 ≠ TargetOutcome.notFound) ∧ 0 < 2) ∧
      ((storedAfterTarget [(1, TargetOutcome.ok 0), (2, TargetOutcome.ok 1)]
            0).progress = pyFloatPct 1 2 ∧
        pyFloatPct 2 3 = 66 ∧
        pyFloatPct 29 100 = 28 ∧ (100 * 29) / 100 = 29) :=
  ⟨⟨by decide, by decide⟩,
    scrape_progress_truncated_formula
      [(1, TargetOutcome.ok 0), (2, TargetOutcome.ok 1)] (by decide) 0
      (by decide)⟩

/-- C5: whenever per-job setup succeeds, per-target exceptions (and
missing targets) are caught and recorded without aborting the job: every
uncancelled run ends `completed`; `errors_count` counts exactly the
targets that raised or were missing, `targets_completed` exactly the
successful ones, and each target entry records its own outcome (in
particular a raised exception's message lands in that target's `error`
with status `failed`).  Concretely, a 3-target job whose second target
raises ends `completed` with `errorsCount = 1`, `targetsCompleted = 2`,
and target 2 `failed`. -/
theorem scrape_per_target_error_isolation :
    (∀ ts : List (Nat × TargetOutcome),
      (finalJob none ts none).status = JobStatus.completed ∧
      (finalJob none ts none).stats.errorsCount
          = (ts.filter (fun p => isErr p.2)).length ∧
      (finalJob none ts none).stats.targetsCompleted
          = (ts.filter (fun p => isOk p.2)).length ∧
      (finalJob none ts none).targets
          = ts.map (fun p => outcomeTarget p.1 p.2)) ∧
    ((finalJob none [(1, TargetOutcome.ok 2), (2, TargetOutcome.raises "boom"),
        (3, TargetOutcome.ok 1)] none).status = JobStatus.completed ∧
      (finalJob none [(1, TargetOutcome.ok 2), (2, TargetOutcome.raises "boom"),
        (3, TargetOutcome.ok 1)] none).stats.errorsCount = 1 ∧
      (finalJob none [(1, TargetOutcome.ok 2), (2, TargetOutcome.raises "boom"),
        (3, TargetOutcome.ok 1)] none).stats.targetsCompleted = 2 ∧
      ((finalJob none [(1, TargetOutcome.ok 2), (2, TargetOutcome.raises "boom"),
        (3, TargetOutcome.ok 1)] none).targets.getD 1 (initTarget 0)).status
          = TStatus.failed) := by
  constructor
  · intro ts
    have hne2 := loopBlocks_flatten_ne_nil ts.length none ts 0 0 ⟨0, 0, 0⟩ 0 []
    have h := loop_final_stats ts.length ts 0 0 ⟨0, 0, 0⟩ 0 []
    have hfj : finalJob none ts none
        = ((loopBlocks ts.length none 0 0 ⟨0, 0, 0⟩ 0 [] ts).flatten.getLastD
            dummyRec) := by
      simp only [finalJob, execTrace, List.getLastD_cons]
      exact getLastD_irrel _ hne2 _ _
    rw [hfj]
    obtain ⟨h1, h2, h3, h4⟩ := h
    refine ⟨h1, by simpa using h3, by simpa using h2, by simpa using h4⟩
  · decide

end ScrapeExec

namespace Sched

/-- `Schedule.frequency` literals. -/
inductive Freq where
  | hourly | daily | weekly | monthly
deriving DecidableEq, Repr

/-- `ScheduleExecution.status` literals. -/
inductive ExecStatus where
  | pending | running | completed | failed | skipped
deriving DecidableEq, Repr

/-- The schedule document (`app/models/schedule.py`, `Schedule`), with
timestamps as abstract instants measured in minutes.  Pydantic bounds
`max_retries` to `0 ≤ max_retries ≤ 10`, so 0 is an allowed value. -/
structure Schedule where
  enabled : Bool
  frequency : Freq
  time : Option String
  dayOfWeek : Option Nat
  dayOfMonth : Option Nat
  timezone : String
  maxRetries : Nat
  notifyOnFailure : Bool
  nextRun : Option Nat
  lastRun : Option Nat
  lastStatus : Option ExecStatus
  consecutiveFailures : Nat
  createdAt : Nat
  updatedAt : Nat
deriving DecidableEq, Repr

/-- The signature of `ScheduleRepository._calculate_next_run`.  The
function's calendar arithmetic (pytz localisation, next hour / day /
weekday / day-of-month) is kept abstract: every branch of the Python
function returns a `datetime` — it is total, which is all the claims
depend on — so it is modelled as an arbitrary function into instants. -/
abbrev CalcNextRun :=
  Freq → Option String → Option Nat → Option Nat → String → Nat → Nat

/-- `ScheduleCreate` payload. -/
structure ScheduleCreate where
  enabled : Bool
  frequency : Freq
  time : Option String
  dayOfWeek : Option Nat
  dayOfMonth : Option Nat
  timezone : String
  maxRetries : Nat
  notifyOnFailure : Bool
deriving DecidableEq, Repr

/-- `ScheduleUpdate` payload: `model_dump(exclude_none=True)` keeps only
the provided fields, so each field is optional. -/
structure ScheduleUpdate where
  enabled : Option Bool
  frequency : Option Freq
  time : Option String
  dayOfWeek : Option Nat
  dayOfMonth : Option Nat
  timezone : Option String
  maxRetries : Option Nat
  notifyOnFailure : Option Bool
deriving DecidableEq, Repr

/-- `ScheduleRepository.create_schedule`: `next_run` is computed exactly
when `enabled`, `consecutive_failures` starts at 0. -/
def create_schedule (cnr : CalcNextRun) (d : ScheduleCreate) (now : Nat) :
    Schedule :=
  { enabled := d.enabled, frequency := d.frequency, time := d.time,
    dayOfWeek := d.dayOfWeek, dayOfMonth := d.dayOfMonth,
    timezone := d.timezone, maxRetries := d.maxRetries,
    notifyOnFailure := d.notifyOnFailure,
    nextRun :=
      if d.enabled then
        some (cnr d.frequency d.time d.dayOfWeek d.dayOfMonth d.timezone now)
      else none,
    lastRun := none, lastStatus := none, consecutiveFailures := 0,
    createdAt := now, updatedAt := now }

/-- `if not update_dict` of `update_schedule`: no field was provided. -/
def emptyUpdate (u : ScheduleUpdate) : Bool :=
  u.enabled.isNone && u.frequency.isNone && u.time.isNone &&
    u.dayOfWeek.isNone && u.dayOfMonth.isNone && u.timezone.isNone &&
    u.maxRetries.isNone && u.notifyOnFailure.isNone

/-- The `any(k in update_dict for k in [...])` check of
`update_schedule`: one of the next-run-relevant fields was provided. -/
def relevantChanged (u : ScheduleUpdate) : Bool :=
  u.enabled.isSome || u.frequency.isSome || u.time.isSome ||
    u.dayOfWeek.isSome || u.dayOfMonth.isSome || u.timezone.isSome

/-- `ScheduleRepository.update_schedule`: merge the provided fields over
the stored schedule; when a next-run-relevant field was provided,
recompute `next_run` from the merged values (null exactly when the
merged `enabled` is false), otherwise leave `next_run` as stored. -/
def update_schedule (cnr : CalcNextRun) (u : ScheduleUpdate)
    (s : Schedule) (now : Nat) : Schedule :=
  if emptyUpdate u then s
  else
    let enabled2 := u.enabled.getD s.enabled
    let frequency2 := u.frequency.getD s.frequency
    let time2 := if u.time.isSome then u.time else s.time
    let dow2 := if u.dayOfWeek.isSome then u.dayOfWeek else s.dayOfWeek
    let dom2 := if u.dayOfMonth.isSome then u.dayOfMonth else s.dayOfMonth
    let tz2 := u.timezone.getD s.timezone
    let base : Schedule :=
      { s with
        enabled := enabled2, frequency := frequency2, time := time2,
        dayOfWeek := dow2, dayOfMonth := dom2, timezone := tz2,
        maxRetries := u.maxRetries.getD s.maxRetries,
        notifyOnFailure := u.notifyOnFailure.getD s.notifyOnFailure,
        updatedAt := now }
    if relevantChanged u then
      { base with
        nextRun :=
          if enabled2 then some (cnr frequency2 time2 dow2 dom2 tz2 now)
          else none }
    else base

/-- `ScheduleRepository.record_execution`, the update of the schedule
document (the insert into `schedule_executions` is not modelled: no
claim concerns it).  On `completed`: reset `consecutive_failures`,
recompute `next_run` (the stored `enabled` flag is not consulted).  On
`failed`: increment `consecutive_failures`; disable and clear `next_run`
when the incremented value reaches `max_retries`, otherwise retry in
5 minutes.  Any other status only refreshes `last_run`, `last_status`
and `updated_at`. -/
def record_execution (cnr : CalcNextRun) (s : Schedule)
    (st : ExecStatus) (now : Nat) : Schedule :=
  let base : Schedule :=
    { s with lastRun := some now, lastStatus := some st, updatedAt := now }
  match st with
  | .completed =>
      { base with
        consecutiveFailures := 0,
        nextRun :=
          some (cnr s.frequency s.time s.dayOfWeek s.dayOfMonth
            s.timezone now) }
  | .failed =>
      if s.maxRetries ≤ s.consecutiveFailures + 1 then
        { base with
          consecutiveFailures := s.consecutiveFailures + 1,
          enabled := false, nextRun := none }
      else
        { base with
          consecutiveFailures := s.consecutiveFailures + 1,
          nextRun := some (now + 5) }
  | _ => base

/-- The spec's schedule invariant: `nextRun` is non-null iff `enabled`. -/
def nextRunInv (s : Schedule) : Prop :=
  s.nextRun.isSome ↔ s.enabled = true

instance (s : Schedule) : Decidable (nextRunInv s) := by
  unfold nextRunInv; infer_instance

/-- `get_due_schedules` selects enabled schedules with
`next_run <= now`. -/
def isDue (s : Schedule) (now : Nat) : Bool :=
  s.enabled &&
    (match s.nextRun with
     | some t => decide (t ≤ now)
     | none => false)

/-- Outcome of one `SchedulerService._execute_schedule` call on a due
schedule: the project lookup fails, job creation / enqueueing raises, or
the job is created and enqueued. -/
inductive TickOutcome where
  | projectMissing : TickOutcome
  | jobCreateFailed : String → TickOutcome
  | enqueued : Nat → TickOutcome
deriving DecidableEq, Repr

/-- The execution status `_execute_schedule` records for each outcome:
`skipped` when the project is missing, `failed` when job creation
raises, and `running` on success (no caller anywhere in the codebase
records `completed`). -/
def tickStatus : TickOutcome → ExecStatus
  | .projectMissing => .skipped
  | .jobCreateFailed _ => .failed
  | .enqueued _ => .running

/-- `SchedulerService._execute_schedule`: its only effect on the
schedule document is the `record_execution` call with the outcome's
status. -/
def execute_schedule (cnr : CalcNextRun) (s : Schedule)
    (out : TickOutcome) (now : Nat) : Schedule :=
  record_execution cnr s (tickStatus out) now

/-- A concrete instantiation of the abstract next-run computation, used
by the closed witnesses and counterexamples. -/
def calcFix : CalcNextRun := fun _ _ _ _ _ now => now + 60

/-- A disabled schedule satisfying the `nextRun` invariant. -/
def disabledSchedule : Schedule :=
  create_schedule calcFix
    { enabled := false, frequency := .daily, time := some "09:00",
      dayOfWeek := none, dayOfMonth := none, timezone := "UTC",
      maxRetries := 3, notifyOnFailure := true } 0

end Sched

namespace Sched

/-- An enabled schedule one failure away from its retry limit. -/
def retrySchedule : Schedule :=
  { disabledSchedule with
    enabled := true, nextRun := some 10, maxRetries := 1 }

/-- An enabled schedule that is due at instant 9. -/
def dueSchedule : Schedule :=
  { disabledSchedule with enabled := true, nextRun := some 0 }

/-- C6 counterexample: recording a `completed` execution against a
disabled schedule recomputes `next_run` without consulting `enabled`,
leaving `next_run` non-null while `enabled` is false. -/
theorem schedule_nextrun_invariant_counterexample :
    nextRunInv disabledSchedule ∧
      ¬ nextRunInv (record_execution calcFix disabledSchedule
          ExecStatus.completed 5) := by
  decide

/-- C6 (amended): `nextRun` is non-null iff `enabled` after every
`create_schedule`; the invariant is preserved by every
`update_schedule`, and by `record_execution` whenever the schedule is
enabled beforehand or the recorded status is neither `completed` nor
`failed`.  (A `completed` — or non-disabling `failed` — execution
recorded against a disabled schedule breaks it.) -/
theorem schedule_nextrun_iff_enabled (cnr : CalcNextRun) :
    (∀ d now, nextRunInv (create_schedule cnr d now)) ∧
    (∀ u s now, nextRunInv s → nextRunInv (update_schedule cnr u s now)) ∧
    (∀ s st now, nextRunInv s →
      (s.enabled = true ∨
        (st ≠ ExecStatus.completed ∧ st ≠ ExecStatus.failed)) →
      nextRunInv (record_execution cnr s st now)) := by
  refine ⟨?_, ?_, ?_⟩
  · intro d now
    unfold nextRunInv create_schedule
    cases hd : d.enabled <;> simp
  · intro u s now hinv
    unfold update_schedule
    by_cases he : emptyUpdate u
    · simpa [he] using hinv
    · rw [if_neg he]
      by_cases hrc : relevantChanged u
      · rw [if_pos hrc]
        unfold nextRunInv
        cases hu : u.enabled.getD s.enabled <;> simp [hu]
      · rw [if_neg hrc]
        have hen : u.enabled = none := by
          unfold relevantChanged at hrc
          simp at hrc
          exact Option.not_isSome_iff_eq_none.mp (by simp [hrc.1])
        unfold nextRunInv at hinv ⊢
        simpa [hen] using hinv
  · intro s st now hinv hcase
    cases st with
    | completed =>
        have hen : s.enabled = true := by
          rcases hcase with h | h
          · exact h
          · exact absurd rfl h.1
        unfold nextRunInv record_execution
        simp [hen]
    | failed =>
        have hen : s.enabled = true := by
          rcases hcase with h | h
          · exact h
          · exact absurd rfl h.2
        unfold nextRunInv record_execution
        by_cases hm : s.maxRetries ≤ s.consecutiveFailures + 1
        · simp [hm]
        · simp [hm, hen]
    | pending => simpa [record_execution, nextRunInv] using hinv
    | running => simpa [record_execution, nextRunInv] using hinv
    | skipped => simpa [record_execution, nextRunInv] using hinv

/-- C6 witness -/
theorem schedule_nextrun_iff_enabled_witness :
    (nextRunInv disabledSchedule ∧
      (disabledSchedule.enabled = true ∨
        (ExecStatus.running ≠ ExecStatus.completed ∧
          ExecStatus.running ≠ ExecStatus.failed))) ∧
      nextRunInv (record_execution calcFix disabledSchedule
        ExecStatus.running 3) :=
  ⟨⟨by decide, Or.inr (by decide)⟩,
    (schedule_nextrun_iff_enabled calcFix).2.2 disabledSchedule
      ExecStatus.running 3 (by decide) (Or.inr (by decide))⟩

/-- C7: `record_execution` with `completed` resets
`consecutive_failures` to 0 and recomputes `next_run` from the
schedule's frequency fields; with `failed` it increments
`consecutive_failures`, disables the schedule (`enabled=false`,
`next_run=null`) exactly when the incremented value reaches
`max_retries` (for every `max_retries`, including 0), and otherwise
retries in 5 minutes (`next_run = now + 5`). -/
theorem schedule_failure_retry_policy (cnr : CalcNextRun) (s : Schedule)
    (now : Nat) :
    ((record_execution cnr s ExecStatus.completed now).consecutiveFailures
        = 0 ∧
     (record_execution cnr s ExecStatus.completed now).nextRun
        = some (cnr s.frequency s.time s.dayOfWeek s.dayOfMonth
            s.timezone now)) ∧
    ((record_execution cnr s ExecStatus.failed now).consecutiveFailures
        = s.consecutiveFailures + 1 ∧
     (s.maxRetries ≤ s.consecutiveFailures + 1 →
        (record_execution cnr s ExecStatus.failed now).enabled = false ∧
        (record_execution cnr s ExecStatus.failed now).nextRun = none) ∧
     (s.consecutiveFailures + 1 < s.maxRetries →
        (record_execution cnr s ExecStatus.failed now).nextRun
            = some (now + 5) ∧
        (record_execution cnr s ExecStatus.failed now).enabled
            = s.enabled) ∧
     (s.enabled = true →
        ((record_execution cnr s ExecStatus.failed now).enabled = false ↔
          s.maxRetries ≤ s.consecutiveFailures + 1))) := by
  by_cases h : s.maxRetries ≤ s.consecutiveFailures + 1
  · refine ⟨⟨rfl, rfl⟩, ?_, ?_, ?_, ?_⟩
    · simp [record_execution, h]
    · intro _; simp [record_execution, h]
    · intro h2; omega
    · intro he; simp [record_execution, h]
  · refine ⟨⟨rfl, rfl⟩, ?_, ?_, ?_, ?_⟩
    · simp [record_execution, h]
    · intro h2; exact absurd h2 h
    · intro _; simp [record_execution, h]
    · intro he; simp [record_execution, h, he]

/-- C7 witness -/
theorem schedule_failure_retry_policy_witness :
    retrySchedule.enabled = true ∧
      ((record_execution calcFix retrySchedule ExecStatus.failed 7).enabled
          = false ↔
        retrySchedule.maxRetries ≤ retrySchedule.consecutiveFailures + 1) :=
  ⟨rfl, (schedule_failure_retry_policy calcFix retrySchedule 7).2.2.2.2 rfl⟩

/-- C8: a `record_execution` whose status is neither `completed` nor
`failed` (i.e. `running`, `skipped` or `pending`) changes only
`last_run`, `last_status` and `updated_at`; in particular a successful
scheduler tick — which records `running` after enqueuing the created
job, the only success treatment in the codebase — leaves `next_run`,
`enabled` and `consecutive_failures` unchanged, so a due schedule stays
due. -/
theorem schedule_non_terminal_frame (cnr : CalcNextRun) (s : Schedule)
    (st : ExecStatus) (now : Nat)
    (hst : st ≠ ExecStatus.completed ∧ st ≠ ExecStatus.failed) :
    record_execution cnr s st now
        = { s with
            lastRun := some now, lastStatus := some st,
            updatedAt := now } ∧
      (∀ out : TickOutcome, tickStatus out = ExecStatus.running →
        ((execute_schedule cnr s out now).nextRun = s.nextRun ∧
         (execute_schedule cnr s out now).enabled = s.enabled ∧
         (execute_schedule cnr s out now).consecutiveFailures
            = s.consecutiveFailures ∧
         (isDue s now = true →
            isDue (execute_schedule cnr s out now) now = true))) := by
  constructor
  · cases st with
    | completed => exact absurd rfl hst.1
    | failed => exact absurd rfl hst.2
    | pending => rfl
    | running => rfl
    | skipped => rfl
  · intro out hout
    cases out with
    | projectMissing => cases hout
    | jobCreateFailed msg => cases hout
    | enqueued j =>
        refine ⟨rfl, rfl, rfl, ?_⟩
        intro h
        simpa [execute_schedule, record_execution, tickStatus, isDue]
          using h

/-- C8 witness -/
theorem schedule_non_terminal_frame_witness :
    (ExecStatus.running ≠ ExecStatus.completed ∧
      ExecStatus.running ≠ ExecStatus.failed) ∧
      record_execution calcFix dueSchedule ExecStatus.running 9
        = { dueSchedule with
            lastRun := some 9, lastStatus := some ExecStatus.running,
            updatedAt := 9 } :=
  ⟨by decide,
    (schedule_non_terminal_frame calcFix dueSchedule ExecStatus.running 9
      (by decide)).1⟩

end Sched

namespace Hook

/-- The webhook document fields `record_delivery` touches
(`app/models/webhook.py`, `Webhook`). -/
structure Webhook where
  enabled : Bool
  consecutiveFailures : Nat
  lastTriggered : Option Nat
  lastStatus : Option Int
  updatedAt : Nat
deriving DecidableEq, Repr

/-- How one delivery attempt of `WebhookService.deliver_webhook` ends:
an HTTP response was received (any status code), the request timed out
(`httpx.TimeoutException`), or the connection failed
(`httpx.RequestError`).  On timeout and connection error `status_code`
stays `None`. -/
inductive DeliveryOutcome where
  | response : Int → DeliveryOutcome
  | timeout : DeliveryOutcome
  | connectionError : String → DeliveryOutcome
deriving DecidableEq, Repr

/-- The `status_code` recorded for each outcome. -/
def outcomeStatusCode : DeliveryOutcome → Option Int
  | .response c => some c
  | .timeout => none
  | .connectionError _ => none

/-- `success = status_code is not None and 200 <= status_code < 300`
(`record_delivery`, line 184, and `deliver_webhook`, line 109). -/
def deliverySuccess (statusCode : Option Int) : Bool :=
  match statusCode with
  | some c => decide (200 ≤ c) && decide (c < 300)
  | none => false

/-- `WebhookRepository.record_delivery`, the update of the webhook
document (the insert into `webhook_deliveries` is not modelled: no
claim concerns it).  On success `consecutive_failures` resets to 0 and
`enabled` is untouched; on failure `consecutive_failures` is
incremented (`$inc`), and the webhook is disabled when the value read
before the increment is already at least 4 — i.e. when the incremented
value reaches 5. -/
def record_delivery (w : Webhook) (statusCode : Option Int) (now : Nat) :
    Webhook :=
  let base : Webhook :=
    { w with
      lastTriggered := some now, lastStatus := statusCode,
      updatedAt := now }
  if deliverySuccess statusCode then
    { base with consecutiveFailures := 0 }
  else
    { base with
      consecutiveFailures := w.consecutiveFailures + 1,
      enabled := if 4 ≤ w.consecutiveFailures then false else w.enabled }

/-- A webhook one failed delivery away from being disabled. -/
def fourFailures : Webhook :=
  { enabled := true, consecutiveFailures := 4, lastTriggered := none,
    lastStatus := none, updatedAt := 0 }

/-- C9: a recorded delivery is a success exactly when a status code was
received and `200 ≤ code < 300` (timeouts and connection errors carry no
status code and so fail); on success `consecutive_failures` resets to 0
and `enabled` is unchanged; on failure `consecutive_failures` is
incremented and the webhook is disabled exactly when the incremented
value reaches 5 — so a webhook with `consecutive_failures == 4` that
fails once more is disabled — and after any `record_delivery` the state
satisfies `consecutiveFailures ≥ 5 → enabled = false`. -/
theorem webhook_delivery_failure_policy (w : Webhook)
    (statusCode : Option Int) (now : Nat) :
    (deliverySuccess statusCode = true ↔
      ∃ c, statusCode = some c ∧ 200 ≤ c ∧ c < 300) ∧
    (deliverySuccess (outcomeStatusCode DeliveryOutcome.timeout) = false ∧
      ∀ msg, deliverySuccess
        (outcomeStatusCode (DeliveryOutcome.connectionError msg)) = false) ∧
    (deliverySuccess statusCode = true →
      (record_delivery w statusCode now).consecutiveFailures = 0 ∧
      (record_delivery w statusCode now).enabled = w.enabled) ∧
    (deliverySuccess statusCode = false →
      (record_delivery w statusCode now).consecutiveFailures
          = w.consecutiveFailures + 1 ∧
      ((record_delivery w statusCode now).enabled = false ↔
        (5 ≤ w.consecutiveFailures + 1 ∨ w.enabled = false))) ∧
    (5 ≤ (record_delivery w statusCode now).consecutiveFailures →
      (record_delivery w statusCode now).enabled = false) := by
  refine ⟨?_, ⟨rfl, fun _ => rfl⟩, ?_, ?_, ?_⟩
  · unfold deliverySuccess
    cases statusCode with
    | none => simp
    | some c => simp
  · intro h
    unfold record_delivery
    rw [if_pos h]
    exact ⟨rfl, rfl⟩
  · intro h
    unfold record_delivery
    rw [if_neg (by simp [h])]
    refine ⟨rfl, ?_⟩
    by_cases h4 : 4 ≤ w.consecutiveFailures <;> simp [h4]
  · intro h5
    by_cases hs : deliverySuccess statusCode = true
    · unfold record_delivery at h5 ⊢
      rw [if_pos hs] at h5 ⊢
      simp at h5
    · unfold record_delivery at h5 ⊢
      rw [if_neg hs] at h5 ⊢
      simp at h5
      have h4 : 4 ≤ w.consecutiveFailures := by omega
      simp [h4]

/-- C9 witness -/
theorem webhook_delivery_failure_policy_witness :
    (deliverySuccess (some 500) = false) ∧
      ((record_delivery fourFailures (some 500) 3).consecutiveFailures
          = fourFailures.consecutiveFailures + 1 ∧
        ((record_delivery fourFailures (some 500) 3).enabled = false ↔
          (5 ≤ fourFailures.consecutiveFailures + 1 ∨
            fourFailures.enabled = false))) :=
  ⟨by decide,
    (webhook_delivery_failure_policy fourFailures (some 500) 3).2.2.2.1
      (by decide)⟩

end Hook

namespace Hook

/-- 2^32; SHA-256 word arithmetic is modulo this. -/
def M32 : Nat := 4294967296

/-- Addition modulo 2^32. -/
def add32 (a b : Nat) : Nat := (a + b) % M32

/-- Right rotation of a 32-bit word. -/
def rotr (n x : Nat) : Nat := x / 2 ^ n + x % 2 ^ n * 2 ^ (32 - n)

/-- Logical right shift. -/
def shr (n x : Nat) : Nat := x / 2 ^ n

/-- Bitwise complement within 32 bits. -/
def not32 (x : Nat) : Nat := Nat.xor x (M32 - 1)

def bsig0 (x : Nat) : Nat := Nat.xor (Nat.xor (rotr 2 x) (rotr 13 x)) (rotr 22 x)

def bsig1 (x : Nat) : Nat := Nat.xor (Nat.xor (rotr 6 x) (rotr 11 x)) (rotr 25 x)

def ssig0 (x : Nat) : Nat := Nat.xor (Nat.xor (rotr 7 x) (rotr 18 x)) (shr 3 x)

def ssig1 (x : Nat) : Nat := Nat.xor (Nat.xor (rotr 17 x) (rotr 19 x)) (shr 10 x)

def chf (x y z : Nat) : Nat := Nat.xor (Nat.land x y) (Nat.land (not32 x) z)

def maj (x y z : Nat) : Nat :=
  Nat.xor (Nat.xor (Nat.land x y) (Nat.land x z)) (Nat.land y z)

/-- The SHA-256 round constants. -/
def KC : List Nat :=
  [1116352408, 1899447441, 3049323471, 3921009573, 961987163,
   1508970993, 2453635748, 2870763221, 3624381080, 310598401,
   607225278, 1426881987, 1925078388, 2162078206, 2614888103,
   3248222580, 3835390401, 4022224774, 264347078, 604807628,
   770255983, 1249150122, 1555081692, 1996064986, 2554220882,
   2821834349, 2952996808, 3210313671, 3336571891, 3584528711,
   113926993, 338241895, 666307205, 773529912, 1294757372,
   1396182291, 1695183700, 1986661051, 2177026350, 2456956037,
   2730485921, 2820302411, 3259730800, 3345764771, 3516065817,
   3600352804, 4094571909, 275423344, 430227734, 506948616,
   659060556, 883997877, 958139571, 1322822218, 1537002063,
   1747873779, 1955562222, 2024104815, 2227730452, 2361852424,
   2428436474, 2756734187, 3204031479, 3329325298]

/-- The SHA-256 initial hash value. -/
def HInit : List Nat :=
  [1779033703, 3144134277, 1013904242, 2773480762,
   1359893119, 2600822924, 528734635, 1541459225]

/-- Big-endian 8-byte encoding of a length in bits. -/
def be64 (v : Nat) : List Nat :=
  [v / 2 ^ 56 % 256, v / 2 ^ 48 % 256, v / 2 ^ 40 % 256, v / 2 ^ 32 % 256,
   v / 2 ^ 24 % 256, v / 2 ^ 16 % 256, v / 2 ^ 8 % 256, v % 256]

/-- SHA-256 message padding: append `0x80`, zeros to 56 mod 64, and the
bit length. -/
def padMessage (msg : List Nat) : List Nat :=
  let L := msg.length
  msg ++ [128] ++ List.replicate ((120 - (L + 1) % 64) % 64) 0 ++ be64 (8 * L)

/-- Big-endian 32-bit words of a byte list. -/
def toWords : List Nat → List Nat
  | b0 :: b1 :: b2 :: b3 :: rest =>
      (((b0 * 256 + b1) * 256 + b2) * 256 + b3) :: toWords rest
  | _ => []

/-- One step of the SHA-256 message-schedule extension. -/
def extendStep (ws : List Nat) : List Nat :=
  ws ++ [add32 (add32 (ssig1 (ws.getD (ws.length - 2) 0))
                      (ws.getD (ws.length - 7) 0))
               (add32 (ssig0 (ws.getD (ws.length - 15) 0))
                      (ws.getD (ws.length - 16) 0))]

/-- The 64-word message schedule of one block. -/
def extendW (ws : List Nat) : List Nat := extendStep^[48] ws

/-- One SHA-256 compression round on the 8-word working state. -/
def roundStep (st : List Nat) (kw : Nat × Nat) : List Nat :=
  match st with
  | [a, b, c, d, e, f, g, h] =>
      let t1 := add32 h (add32 (bsig1 e) (add32 (chf e f g) (add32 kw.1 kw.2)))
      let t2 := add32 (bsig0 a) (maj a b c)
      [add32 t1 t2, a, b, c, add32 d t1, e, f, g]
  | other => other

/-- SHA-256 compression of one 64-byte block into the hash state. -/
def compress (h : List Nat) (block : List Nat) : List Nat :=
  List.zipWith add32 h ((KC.zip (extendW (toWords block))).foldl roundStep h)

/-- Split a byte list into 64-byte chunks (structural recursion on a
fuel bounded by the list length, so that the kernel can evaluate it). -/
def chunksGo : Nat → List Nat → List (List Nat)
  | 0, _ => []
  | _, [] => []
  | fuel + 1, a :: rest =>
      ((a :: rest).take 64) :: chunksGo fuel ((a :: rest).drop 64)

/-- Split a byte list into 64-byte chunks. -/
def chunks64 (l : List Nat) : List (List Nat) := chunksGo l.length l

/-- SHA-256 of a byte list, as 32 bytes. -/
def sha256 (msg : List Nat) : List Nat :=
  (((chunks64 (padMessage msg)).foldl compress HInit).map
    (fun w => [w / 2 ^ 24 % 256, w / 2 ^ 16 % 256, w / 2 ^ 8 % 256,
               w % 256])).flatten

/-- `hmac.new(key, msg, hashlib.sha256).digest()`: HMAC-SHA256 with the
standard 64-byte block size. -/
def hmacSha256 (key msg : List Nat) : List Nat :=
  let k0 := if 64 < key.length then sha256 key else key
  let k1 := k0 ++ List.replicate (64 - k0.length) 0
  sha256 (k1.map (fun b => Nat.xor b 92) ++
    sha256 (k1.map (fun b => Nat.xor b 54) ++ msg))

/-- Lower-case hexadecimal digit. -/
def hexDigit (n : Nat) : Char :=
  if n < 10 then Char.ofNat (48 + n) else Char.ofNat (87 + n)

/-- Lower-case hexadecimal string of a byte list (`.hexdigest()`). -/
def bytesToHex (bs : List Nat) : String :=
  String.mk ((bs.map (fun b => [hexDigit (b / 16), hexDigit (b % 16)])).flatten)

/-- UTF-8 encoding of one code point (`str.encode()` per character). -/
def utf8Bytes (c : Nat) : List Nat :=
  if c < 128 then [c]
  else if c < 2048 then [192 + c / 64, 128 + c % 64]
  else if c < 65536 then [224 + c / 4096, 128 + c / 64 % 64, 128 + c % 64]
  else [240 + c / 262144, 128 + c / 4096 % 64, 128 + c / 64 % 64,
        128 + c % 64]

/-- The UTF-8 bytes of a string (`payload.encode()`, and the bytes httpx
posts for a `str` body). -/
def strBytes (s : String) : List Nat :=
  (s.data.map (fun ch => utf8Bytes ch.toNat)).flatten

/-- `WebhookService._sign_payload`: the hex HMAC-SHA256 of the secret
over the payload string's UTF-8 bytes. -/
def sign_payload (payload secret : String) : String :=
  bytesToHex (hmacSha256 (strBytes secret) (strBytes payload))

end Hook

namespace Hook

/-- The HTTP request `WebhookService.deliver_webhook` assembles: the
body it posts is `payload_json` (httpx UTF-8-encodes the `str` content),
the serialized `{event, timestamp, data}` envelope; when the webhook has
a secret, the `X-Webhook-Signature` header is
`"sha256=" + _sign_payload(payload_json, secret)` over that same
string.  The `json.dumps` serialization itself is not modelled: the
claims concern whichever exact byte string it produces, taken here as
the input `payloadJson`. -/
structure WebhookRequest where
  body : List Nat
  signatureHeader : Option String
  eventHeader : String
deriving DecidableEq, Repr

/-- Request construction of `deliver_webhook` (lines 49-82). -/
def deliver_request (secret : Option String) (event payloadJson : String) :
    WebhookRequest :=
  { body := strBytes payloadJson,
    signatureHeader :=
      secret.map (fun sec => "sha256=" ++ sign_payload payloadJson sec),
    eventHeader := event }

/-- The receiver's independent verification: recompute the hex
HMAC-SHA256 of the shared secret over the received body bytes and
prefix `sha256=`. -/
def receiverRecompute (secret : String) (receivedBody : List Nat) :
    String :=
  "sha256=" ++ bytesToHex (hmacSha256 (strBytes secret) receivedBody)

end Hook

set_option maxRecDepth 10000

/-- C10: for a webhook with a secret, the `X-Webhook-Signature` header
sent equals `sha256=` followed by the hex HMAC-SHA256 of the secret over
exactly the bytes posted as the request body, so a receiver recomputing
HMAC-SHA256 with the same secret over the received body obtains an
equal signature; the body posted is exactly the UTF-8 bytes of the
serialized envelope that was signed.  The HMAC-SHA256 implementation is
checked against the standard test vector
HMAC("key", "The quick brown fox jumps over the lazy dog"). -/
theorem webhook_signature_roundtrip (secret event payloadJson : String) :
    ((Hook.deliver_request (some secret) event payloadJson).signatureHeader
        = some (Hook.receiverRecompute secret
            (Hook.deliver_request (some secret) event payloadJson).body)) ∧
      (Hook.deliver_request (some secret) event payloadJson).body
          = Hook.strBytes payloadJson ∧
      Hook.sign_payload "The quick brown fox jumps over the lazy dog" "key"
          = "f7bc83f430538424b13298e6aa6fb143ef4d59a14946175997479dbc2d1a3cd8" := by
  refine ⟨rfl, rfl, by decide⟩
